import Mathlib

/-!
# Verification of the Pacman map-generator core

Shallow embedding of `pacman_mapgen` (files `core.py`, `grid.py`,
`kruskal.py`, `prim.py`, `randdfs.py`, `randgen.py`) together with proofs
of the specified properties.

Conventions of the embedding:
* Python `int` becomes `Int` (coordinates) or `Nat` (sizes, counts).
* The mutable `Cell`/`CellGrid` objects become immutable records updated
  functionally; the cell matrix becomes a function `Position → Cell`
  (all verified accesses are bounds-checked in the source, so the
  in-bounds behaviour is the one that matters).
* `raise IndexError` becomes `Except String`.
* The seeded PRNG (`random.Random`) is modelled by explicit data
  threaded through the algorithms: streams of rationals for
  `Random.random()` draws and shuffle oracles (arbitrary functions that
  permute their input) for `Random.shuffle`.  Properties quantified over
  every stream/oracle hold in particular for the stream produced by any
  seed.
-/

namespace PacmanMapgen

/-- `CellType` from `core.py`: EMPTY, WALL, FOOD, PACMAN. -/
inductive CellType where
  | EMPTY
  | WALL
  | FOOD
  | PACMAN
deriving DecidableEq, Repr

/-- `Position` from `core.py`: integer pair `(x_coord, y_coord)` with
structural equality. -/
structure Position where
  x_coord : Int
  y_coord : Int
deriving DecidableEq, Repr

/-- `Position.__add__`: component-wise addition. -/
def Position.add (a b : Position) : Position :=
  { x_coord := a.x_coord + b.x_coord, y_coord := a.y_coord + b.y_coord }

/-- `Position.__sub__` exactly as written in `core.py` (lines 85–97):
note the body ADDS the components despite the docstring saying
"Subtracts the coordinates". -/
def Position.sub (a b : Position) : Position :=
  { x_coord := a.x_coord + b.x_coord, y_coord := a.y_coord + b.y_coord }

/-- `Position.left` property. -/
def Position.left (p : Position) : Position :=
  { x_coord := p.x_coord - 1, y_coord := p.y_coord }

/-- `Position.right` property. -/
def Position.right (p : Position) : Position :=
  { x_coord := p.x_coord + 1, y_coord := p.y_coord }

/-- `Position.up` property. -/
def Position.up (p : Position) : Position :=
  { x_coord := p.x_coord, y_coord := p.y_coord - 1 }

/-- `Position.down` property. -/
def Position.down (p : Position) : Position :=
  { x_coord := p.x_coord, y_coord := p.y_coord + 1 }

/-- `Direction` enum from `core.py`/`grid.py`: LEFT, RIGHT, UP, DOWN. -/
inductive Direction where
  | LEFT
  | RIGHT
  | UP
  | DOWN
deriving DecidableEq, Repr

/-- The unit vector carried by each `Direction` member
(LEFT = (-1,0), RIGHT = (1,0), UP = (0,-1), DOWN = (0,1)). -/
def Direction.toPos : Direction → Position
  | .LEFT => { x_coord := -1, y_coord := 0 }
  | .RIGHT => { x_coord := 1, y_coord := 0 }
  | .UP => { x_coord := 0, y_coord := -1 }
  | .DOWN => { x_coord := 0, y_coord := 1 }

/-- `Direction.reverse` via the `_REVERSE_DIRECTIONS` lookup table. -/
def Direction.reverse : Direction → Direction
  | .LEFT => .RIGHT
  | .RIGHT => .LEFT
  | .UP => .DOWN
  | .DOWN => .UP

/-- Iteration order of the `Direction` enum (`for direction in Direction`). -/
def Direction.all : List Direction :=
  [.LEFT, .RIGHT, .UP, .DOWN]

/-- Position reached from `p` by stepping in direction `d`
(`position + direction` in Python, `Direction` being a `Position`). -/
def Position.step (p : Position) (d : Direction) : Position :=
  p.add d.toPos

/-- `Cell` from `grid.py`: a cell type plus one closed/open flag per
direction; `walls d = true` means the wall towards `d` is closed
(`self._walls[direction] = True` initially). -/
structure Cell where
  walls : Direction → Bool
  type : CellType

/-- `Cell.__init__`: all four walls closed. -/
def Cell.init (cell_type : CellType) : Cell :=
  { walls := fun _ => true, type := cell_type }

/-- `Cell.open_wall`. -/
def Cell.openWall (c : Cell) (direction : Direction) : Cell :=
  { c with walls := fun e => if e = direction then false else c.walls e }

/-- `Cell.is_open`. -/
def Cell.isOpen (c : Cell) (direction : Direction) : Bool :=
  !(c.walls direction)

/-- `CellGrid` from `grid.py`: dimensions plus the cell matrix, the
matrix modelled as a function on positions (source accesses are
in-bounds wherever we reason about them). -/
structure CellGrid where
  width : Nat
  height : Nat
  cells : Position → Cell

/-- `CellGrid.__init__`: `width × height` cells, every wall closed. -/
def CellGrid.init (width height : Nat) (init_type : CellType) : CellGrid :=
  { width := width, height := height, cells := fun _ => Cell.init init_type }

/-- `CellGrid.is_out_of_bounds`. -/
def CellGrid.isOutOfBounds (g : CellGrid) (position : Position) : Bool :=
  position.y_coord < 0 || position.y_coord ≥ (g.height : Int)
    || position.x_coord < 0 || position.x_coord ≥ (g.width : Int)

/-- `CellGrid.get_neighbors`: `(position + direction, direction)` pairs
for the four directions, keeping the in-bounds ones. -/
def CellGrid.getNeighbors (g : CellGrid) (position : Position) :
    List (Position × Direction) :=
  (Direction.all.map (fun d => (position.step d, d))).filter
    (fun neighbor => !(g.isOutOfBounds neighbor.1))

/-- Replace the cell stored at position `p`. -/
def CellGrid.setCell (g : CellGrid) (p : Position) (c : Cell) : CellGrid :=
  { g with cells := fun q => if q = p then c else g.cells q }

/-- `grid[pos].type = t` (type assignment leaves all walls untouched). -/
def CellGrid.setType (g : CellGrid) (p : Position) (t : CellType) : CellGrid :=
  g.setCell p { g.cells p with type := t }

/-- The two unchecked cell mutations performed by a successful
`CellGrid.open_wall`: open `direction` on `position` and its reverse on
the neighbor. -/
def CellGrid.openWallUpd (g : CellGrid) (position : Position)
    (direction : Direction) : CellGrid :=
  let g1 := g.setCell position ((g.cells position).openWall direction)
  g1.setCell (position.step direction)
    ((g1.cells (position.step direction)).openWall direction.reverse)

/-- `CellGrid.open_wall` from `grid.py` (lines 140–161): bounds check on
`position` and `position + direction` first (raising `IndexError`), and
only then the two symmetric cell mutations. -/
def CellGrid.openWall (g : CellGrid) (position : Position)
    (direction : Direction) : Except String CellGrid :=
  let neighbor := position.step direction
  if g.isOutOfBounds position || g.isOutOfBounds neighbor then
    .error "Cannot open wall as it goes out of bounds"
  else
    .ok (g.openWallUpd position direction)

/-- Whether the wall of the cell at `p` towards `d` is open. -/
def CellGrid.isOpen (g : CellGrid) (p : Position) (d : Direction) : Bool :=
  (g.cells p).isOpen d

/-- `Layout` from `core.py`: a `height × width` matrix of cell types,
kept as an explicit list of rows. -/
structure Layout where
  width : Nat
  height : Nat
  rows : List (List CellType)
deriving DecidableEq

/-- `Layout.__init__`: a `height`-row, `width`-column matrix filled with
`init_type`. -/
def Layout.init (width height : Nat) (init_type : CellType) : Layout :=
  { width := width
    height := height
    rows := List.replicate height (List.replicate width init_type) }

/-- `Layout.__setitem__` (`self._layout[p.y_coord][p.x_coord] = t`); the
source only ever writes non-negative in-range indices. -/
def Layout.set (l : Layout) (position : Position) (cell_type : CellType) :
    Layout :=
  { l with
    rows :=
      l.rows.set position.y_coord.toNat
        ((l.rows.getD position.y_coord.toNat []).set position.x_coord.toNat
          cell_type) }

/-- `Layout.__getitem__` read-back, with `WALL`-defaulting accessor used
only to state properties. -/
def Layout.get (l : Layout) (y x : Nat) : CellType :=
  (l.rows.getD y []).getD x CellType.WALL

/-- The per-cell body of the `to_layout` double loop: write the cell
type at `(2x+1, 2y+1)` and, for each open wall, `EMPTY` at the
corresponding offset position. -/
def CellGrid.writeCell (g : CellGrid) (l : Layout) (x_pos y_pos : Nat) :
    Layout :=
  let cell := g.cells { x_coord := (x_pos : Int), y_coord := (y_pos : Int) }
  let layout_p : Position :=
    { x_coord := 2 * (x_pos : Int) + 1, y_coord := 2 * (y_pos : Int) + 1 }
  let l0 := l.set layout_p cell.type
  let l1 := if cell.isOpen .LEFT then l0.set layout_p.left .EMPTY else l0
  let l2 := if cell.isOpen .RIGHT then l1.set layout_p.right .EMPTY else l1
  let l3 := if cell.isOpen .UP then l2.set layout_p.up .EMPTY else l2
  if cell.isOpen .DOWN then l3.set layout_p.down .EMPTY else l3

/-- `CellGrid.to_layout` from `grid.py` (lines 163–190): start from a
`(2·width+1) × (2·height+1)` all-`WALL` layout and run the double loop
over the grid rows and columns. -/
def CellGrid.toLayout (g : CellGrid) : Layout :=
  (List.range g.height).foldl
    (fun l y_pos =>
      (List.range g.width).foldl (fun l2 x_pos => g.writeCell l2 x_pos y_pos) l)
    (Layout.init (2 * g.width + 1) (2 * g.height + 1) CellType.WALL)

/-! ## Derived predicates used to state the specified properties -/

/-- In-bounds predicate `[0,width) × [0,height)` (the negation of
`is_out_of_bounds`). -/
def inBounds (width height : Nat) (p : Position) : Prop :=
  0 ≤ p.x_coord ∧ p.x_coord < (width : Int)
    ∧ 0 ≤ p.y_coord ∧ p.y_coord < (height : Int)

instance (width height : Nat) (p : Position) :
    Decidable (inBounds width height p) := by
  unfold inBounds; infer_instance

/-- In-bounds positions of a grid. -/
def CellGrid.inB (g : CellGrid) (p : Position) : Prop :=
  inBounds g.width g.height p

instance (g : CellGrid) (p : Position) : Decidable (g.inB p) := by
  unfold CellGrid.inB; infer_instance

/-- Two-sided wall agreement: the open/closed flag of every wall agrees
with the flag stored on the other side of that wall. -/
def WallSym (g : CellGrid) : Prop :=
  ∀ p d, g.isOpen p d = g.isOpen (p.step d) d.reverse

/-- Every open wall joins two in-bounds cells (walls facing outside the
grid are closed). -/
def ClosedOutward (g : CellGrid) : Prop :=
  ∀ p d, g.isOpen p d = true → g.inB p ∧ g.inB (p.step d)

/-- One step through an open wall between two in-bounds cells. -/
def AdjOpen (g : CellGrid) (p q : Position) : Prop :=
  ∃ d, g.inB p ∧ g.inB q ∧ q = p.step d ∧ g.isOpen p d = true

/-- Reachability through open walls. -/
def ReachOpen (g : CellGrid) : Position → Position → Prop :=
  Relation.ReflTransGen (AdjOpen g)

/-- The carved grid is connected: every in-bounds cell reaches every
other through open walls. -/
def CellGrid.Connected (g : CellGrid) : Prop :=
  ∀ p q, g.inB p → g.inB q → ReachOpen g p q

/-- All grid positions, `x` outer and `y` inner, matching the `positions`
comprehension in `kruskal.py`. -/
def positionsList (width height : Nat) : List Position :=
  (List.range width).flatMap fun (x_pos : Nat) =>
    (List.range height).map fun (y_pos : Nat) =>
      { x_coord := (x_pos : Int), y_coord := (y_pos : Int) }

/-- One representative `(p, d)` per undirected wall of the grid:
`d ∈ {RIGHT, DOWN}` with `p` and `p + d` in bounds. -/
def canonicalWalls (width height : Nat) : List (Position × Direction) :=
  (positionsList width height).flatMap fun p =>
    ([(p, Direction.RIGHT), (p, Direction.DOWN)]).filter fun pd =>
      decide (inBounds width height (pd.1.step pd.2))

/-- Number of open (undirected) walls of the grid. -/
def CellGrid.openWallCount (g : CellGrid) : Nat :=
  (canonicalWalls g.width g.height).countP fun pd => g.isOpen pd.1 pd.2

/-! ## Elementary facts about positions and directions -/

theorem Direction.reverse_reverse (d : Direction) : d.reverse.reverse = d := by
  cases d <;> rfl

theorem Position.step_step_reverse (p : Position) (d : Direction) :
    (p.step d).step d.reverse = p := by
  cases p
  cases d <;> simp [Position.step, Position.add, Direction.toPos,
    Direction.reverse] <;> omega

theorem Position.step_ne (p : Position) (d : Direction) : p.step d ≠ p := by
  cases p
  cases d <;> simp [Position.step, Position.add, Direction.toPos] <;> omega

theorem Position.ne_step (p : Position) (d : Direction) : p ≠ p.step d :=
  fun h => Position.step_ne p d h.symm

/-- Reading a direction step off the two sides: `q = p.step d ↔ p = q.step d.reverse`. -/
theorem Position.step_eq_comm {p q : Position} {d : Direction} :
    q = p.step d ↔ p = q.step d.reverse := by
  constructor
  · rintro rfl
    exact (Position.step_step_reverse p d).symm
  · rintro rfl
    exact (Position.step_step_reverse q d.reverse).symm.trans
      (by rw [Direction.reverse_reverse])

/-! ## Elementary facts about grids and wall updates -/

theorem CellGrid.width_setCell (g : CellGrid) (p : Position) (c : Cell) :
    (g.setCell p c).width = g.width := rfl

theorem CellGrid.height_setCell (g : CellGrid) (p : Position) (c : Cell) :
    (g.setCell p c).height = g.height := rfl

theorem CellGrid.width_openWallUpd (g : CellGrid) (p : Position) (d : Direction) :
    (g.openWallUpd p d).width = g.width := rfl

theorem CellGrid.height_openWallUpd (g : CellGrid) (p : Position) (d : Direction) :
    (g.openWallUpd p d).height = g.height := rfl

theorem CellGrid.width_setType (g : CellGrid) (p : Position) (t : CellType) :
    (g.setType p t).width = g.width := rfl

theorem CellGrid.height_setType (g : CellGrid) (p : Position) (t : CellType) :
    (g.setType p t).height = g.height := rfl

theorem Cell.isOpen_openWall (c : Cell) (d e : Direction) :
    (c.openWall d).isOpen e = if e = d then true else c.isOpen e := by
  by_cases h : e = d <;> simp [Cell.isOpen, Cell.openWall, h]

theorem Direction.reverse_ne (d : Direction) : d.reverse ≠ d := by
  cases d <;> simp [Direction.reverse]

/-- Cell flags after the two mutations of a successful `open_wall`. -/
theorem CellGrid.isOpen_openWallUpd (g : CellGrid) (p : Position)
    (d : Direction) (q : Position) (e : Direction) :
    (g.openWallUpd p d).isOpen q e =
      if (q = p ∧ e = d) ∨ (q = p.step d ∧ e = d.reverse) then true
      else g.isOpen q e := by
  have hne : p.step d ≠ p := Position.step_ne p d
  have hcells : (g.openWallUpd p d).cells q =
      if q = p.step d then (g.cells (p.step d)).openWall d.reverse
      else if q = p then (g.cells p).openWall d
      else g.cells q := by
    have hne' : p ≠ p.step d := fun h => hne h.symm
    unfold CellGrid.openWallUpd CellGrid.setCell
    by_cases hq1 : q = p.step d
    · subst hq1; simp [hne]
    · by_cases hq2 : q = p <;> simp [hq1, hq2, hne']
  unfold CellGrid.isOpen
  rw [hcells]
  by_cases hq1 : q = p.step d
  · subst hq1
    simp [hne, Cell.isOpen_openWall, CellGrid.isOpen]
  · by_cases hq2 : q = p
    · subst hq2
      simp [hq1, Cell.isOpen_openWall, CellGrid.isOpen]
    · simp [hq1, hq2, CellGrid.isOpen]

theorem CellGrid.isOpen_openWallUpd_self (g : CellGrid) (p : Position)
    (d : Direction) : (g.openWallUpd p d).isOpen p d = true := by
  simp [CellGrid.isOpen_openWallUpd]

theorem CellGrid.isOpen_openWallUpd_nbr (g : CellGrid) (p : Position)
    (d : Direction) :
    (g.openWallUpd p d).isOpen (p.step d) d.reverse = true := by
  simp [CellGrid.isOpen_openWallUpd]

theorem CellGrid.isOpen_openWallUpd_other (g : CellGrid) {p : Position}
    {d : Direction} {q : Position} {e : Direction}
    (h1 : ¬(q = p ∧ e = d)) (h2 : ¬(q = p.step d ∧ e = d.reverse)) :
    (g.openWallUpd p d).isOpen q e = g.isOpen q e := by
  simp [CellGrid.isOpen_openWallUpd, h1, h2]

/-- Opening a wall never closes a wall. -/
theorem CellGrid.isOpen_mono_openWallUpd (g : CellGrid) (p : Position)
    (d : Direction) {q : Position} {e : Direction}
    (h : g.isOpen q e = true) : (g.openWallUpd p d).isOpen q e = true := by
  rw [CellGrid.isOpen_openWallUpd]
  split <;> simp [h]

/-- Type assignment touches no wall. -/
theorem CellGrid.isOpen_setType (g : CellGrid) (p : Position) (t : CellType)
    (q : Position) (e : Direction) :
    (g.setType p t).isOpen q e = g.isOpen q e := by
  unfold CellGrid.setType CellGrid.setCell CellGrid.isOpen Cell.isOpen
  by_cases h : q = p <;> simp [h]

theorem isOutOfBounds_eq_false_iff (g : CellGrid) (p : Position) :
    g.isOutOfBounds p = false ↔ g.inB p := by
  simp [CellGrid.isOutOfBounds, CellGrid.inB, inBounds]
  omega

theorem isOutOfBounds_eq_true_iff (g : CellGrid) (p : Position) :
    g.isOutOfBounds p = true ↔ ¬g.inB p := by
  rw [← isOutOfBounds_eq_false_iff]
  cases g.isOutOfBounds p <;> simp

/-- `open_wall` as a checked conditional: the bounds test decides the
outcome before any cell is touched. -/
theorem CellGrid.openWall_def (g : CellGrid) (p : Position) (d : Direction) :
    g.openWall p d =
      if g.inB p ∧ g.inB (p.step d) then .ok (g.openWallUpd p d)
      else .error "Cannot open wall as it goes out of bounds" := by
  unfold CellGrid.openWall
  by_cases h1 : g.inB p <;> by_cases h2 : g.inB (p.step d) <;>
    simp [h1, h2, (isOutOfBounds_eq_false_iff g p),
      (isOutOfBounds_eq_true_iff g p),
      (isOutOfBounds_eq_false_iff g (p.step d)),
      (isOutOfBounds_eq_true_iff g (p.step d))]

/-- Success characterisation of `open_wall`. -/
theorem CellGrid.openWall_eq_ok_iff (g : CellGrid) (p : Position)
    (d : Direction) (g' : CellGrid) :
    g.openWall p d = .ok g' ↔
      (g.inB p ∧ g.inB (p.step d)) ∧ g' = g.openWallUpd p d := by
  rw [CellGrid.openWall_def]
  by_cases h : g.inB p ∧ g.inB (p.step d) <;> simp [h, eq_comm]

/-- Failure characterisation of `open_wall`. -/
theorem CellGrid.openWall_isError_iff (g : CellGrid) (p : Position)
    (d : Direction) :
    (∃ msg, g.openWall p d = .error msg) ↔ ¬(g.inB p ∧ g.inB (p.step d)) := by
  rw [CellGrid.openWall_def]
  by_cases h : g.inB p ∧ g.inB (p.step d) <;> simp [h]

theorem Direction.reverse_inj {d e : Direction} (h : d.reverse = e.reverse) :
    d = e := by
  cases d <;> cases e <;> first | rfl | exact absurd h (by decide)

theorem Position.step_inj {p q : Position} {d : Direction}
    (h : p.step d = q.step d) : p = q := by
  have := congrArg (fun r => r.step d.reverse) h
  simpa [Position.step_step_reverse] using this

theorem CellGrid.inB_openWallUpd (g : CellGrid) (p : Position) (d : Direction)
    (q : Position) : (g.openWallUpd p d).inB q ↔ g.inB q := Iff.rfl

theorem CellGrid.inB_setType (g : CellGrid) (p : Position) (t : CellType)
    (q : Position) : (g.setType p t).inB q ↔ g.inB q := Iff.rfl

/-! ## Preservation of the wall invariants -/

theorem wallSym_init (w h : Nat) (t : CellType) : WallSym (CellGrid.init w h t) :=
  fun _ _ => rfl

theorem closedOutward_init (w h : Nat) (t : CellType) :
    ClosedOutward (CellGrid.init w h t) := by
  intro p d hopen
  simp [CellGrid.init, CellGrid.isOpen, Cell.init, Cell.isOpen] at hopen

theorem WallSym.openWallUpd_sym {g : CellGrid} (hs : WallSym g) (p : Position)
    (d : Direction) : WallSym (g.openWallUpd p d) := by
  intro q e
  rw [CellGrid.isOpen_openWallUpd, CellGrid.isOpen_openWallUpd]
  have hcond : ((q = p ∧ e = d) ∨ (q = p.step d ∧ e = d.reverse)) ↔
      ((q.step e = p ∧ e.reverse = d)
        ∨ (q.step e = p.step d ∧ e.reverse = d.reverse)) := by
    constructor
    · rintro (⟨rfl, rfl⟩ | ⟨rfl, rfl⟩)
      · exact Or.inr ⟨rfl, rfl⟩
      · exact Or.inl ⟨by rw [Position.step_step_reverse],
          by rw [Direction.reverse_reverse]⟩
    · rintro (⟨hq, rfl⟩ | ⟨hq, he⟩)
      · refine Or.inr ⟨?_, (Direction.reverse_reverse e).symm⟩
        rw [← hq]
        exact (Position.step_step_reverse q e).symm
      · have hde := Direction.reverse_inj he
        subst hde
        exact Or.inl ⟨Position.step_inj hq, rfl⟩
  by_cases hc : (q = p ∧ e = d) ∨ (q = p.step d ∧ e = d.reverse)
  · rw [if_pos hc, if_pos (hcond.mp hc)]
  · rw [if_neg hc, if_neg (fun h => hc (hcond.mpr h))]
    exact hs q e

theorem ClosedOutward.openWallUpd_closed {g : CellGrid} (hc : ClosedOutward g)
    {p : Position} {d : Direction} (hp : g.inB p) (hq : g.inB (p.step d)) :
    ClosedOutward (g.openWallUpd p d) := by
  intro q e hopen
  rw [CellGrid.inB_openWallUpd, CellGrid.inB_openWallUpd]
  rw [CellGrid.isOpen_openWallUpd] at hopen
  by_cases hcond : (q = p ∧ e = d) ∨ (q = p.step d ∧ e = d.reverse)
  · rcases hcond with ⟨rfl, rfl⟩ | ⟨rfl, rfl⟩
    · exact ⟨hp, hq⟩
    · exact ⟨hq, by rwa [Position.step_step_reverse]⟩
  · simp only [hcond, if_false] at hopen
    exact hc q e hopen

theorem WallSym.setType_sym {g : CellGrid} (hs : WallSym g) (p : Position)
    (t : CellType) : WallSym (g.setType p t) := by
  intro q e
  rw [CellGrid.isOpen_setType, CellGrid.isOpen_setType]
  exact hs q e

theorem ClosedOutward.setType_closed {g : CellGrid} (hc : ClosedOutward g)
    (p : Position) (t : CellType) : ClosedOutward (g.setType p t) := by
  intro q e hopen
  rw [CellGrid.isOpen_setType] at hopen
  exact hc q e hopen

/-- A symmetric grid stores the same flag on the two sides of a wall. -/
theorem WallSym.isOpen_step {g : CellGrid} (hs : WallSym g) (p : Position)
    (d : Direction) : g.isOpen (p.step d) d.reverse = g.isOpen p d :=
  (hs p d).symm

theorem AdjOpen.symm_adj {g : CellGrid} (hs : WallSym g) {p q : Position}
    (h : AdjOpen g p q) : AdjOpen g q p := by
  obtain ⟨d, hp, hq, rfl, hopen⟩ := h
  exact ⟨d.reverse, hq, hp, (Position.step_step_reverse p d).symm,
    by rw [hs.isOpen_step p d]; exact hopen⟩

theorem ReachOpen.symm_reach {g : CellGrid} (hs : WallSym g) {p q : Position}
    (h : ReachOpen g p q) : ReachOpen g q p := by
  induction h with
  | refl => exact Relation.ReflTransGen.refl
  | tail _ hstep ih =>
    exact Relation.ReflTransGen.head (hstep.symm_adj hs) ih

theorem ReachOpen.mono_openWallUpd {g : CellGrid} (p : Position)
    (d : Direction) {a b : Position} (h : ReachOpen g a b) :
    ReachOpen (g.openWallUpd p d) a b := by
  refine Relation.ReflTransGen.mono ?_ h
  rintro x y ⟨e, hx, hy, rfl, hopen⟩
  exact ⟨e, hx, hy, rfl, g.isOpen_mono_openWallUpd p d hopen⟩

theorem ReachOpen.setType_iff (g : CellGrid) (p : Position) (t : CellType)
    (a b : Position) : ReachOpen (g.setType p t) a b ↔ ReachOpen g a b := by
  constructor <;> refine fun h => Relation.ReflTransGen.mono ?_ h <;>
    rintro x y ⟨e, hx, hy, rfl, hopen⟩ <;>
    exact ⟨e, hx, hy, rfl, by
      first
        | rwa [CellGrid.isOpen_setType] at hopen
        | rwa [CellGrid.isOpen_setType]⟩

/-- The new wall opened by `open_wall` joins its two endpoints. -/
theorem ReachOpen.openWallUpd_edge {g : CellGrid} {p : Position}
    {d : Direction} (hp : g.inB p) (hq : g.inB (p.step d)) :
    ReachOpen (g.openWallUpd p d) p (p.step d) :=
  Relation.ReflTransGen.single
    ⟨d, hp, hq, rfl, g.isOpen_openWallUpd_self p d⟩

/-! ## Connectivity of the underlying grid graph -/

/-- Adjacency of the full grid graph (walls ignored). -/
def AdjFull (width height : Nat) (p q : Position) : Prop :=
  inBounds width height p ∧ inBounds width height q ∧ ∃ d : Direction, q = p.step d

theorem AdjFull.symm {width height : Nat} : Symmetric (AdjFull width height) := by
  rintro p q ⟨hp, hq, d, rfl⟩
  exact ⟨hq, hp, d.reverse, (Position.step_step_reverse p d).symm⟩

theorem reach_origin (width height : Nat) :
    ∀ n (p : Position), (p.x_coord + p.y_coord).toNat = n →
      inBounds width height p →
      Relation.ReflTransGen (AdjFull width height) p
        { x_coord := 0, y_coord := 0 } := by
  intro n
  induction n using Nat.strong_induction_on with
  | _ n ih =>
    intro p hn hp
    obtain ⟨hx0, hxw, hy0, hyh⟩ := hp
    by_cases hx : 0 < p.x_coord
    · have hstep : p.step .LEFT =
          { x_coord := p.x_coord - 1, y_coord := p.y_coord } := by
        simp [Position.step, Position.add, Direction.toPos]
        omega
      have hp' : inBounds width height (p.step .LEFT) := by
        unfold inBounds; rw [hstep]; dsimp only; omega
      have hrec := ih ((p.step .LEFT).x_coord + (p.step .LEFT).y_coord).toNat
        (by rw [hstep]; dsimp only; omega) _ rfl hp'
      exact Relation.ReflTransGen.head ⟨⟨hx0, hxw, hy0, hyh⟩, hp', .LEFT, rfl⟩ hrec
    · by_cases hy : 0 < p.y_coord
      · have hstep : p.step .UP =
            { x_coord := p.x_coord, y_coord := p.y_coord - 1 } := by
          simp [Position.step, Position.add, Direction.toPos]
          omega
        have hp' : inBounds width height (p.step .UP) := by
          unfold inBounds; rw [hstep]; dsimp only; omega
        have hrec := ih ((p.step .UP).x_coord + (p.step .UP).y_coord).toNat
          (by rw [hstep]; dsimp only; omega) _ rfl hp'
        exact Relation.ReflTransGen.head ⟨⟨hx0, hxw, hy0, hyh⟩, hp', .UP, rfl⟩ hrec
      · have hx' : p.x_coord = 0 := by omega
        have hy' : p.y_coord = 0 := by omega
        have : p = { x_coord := 0, y_coord := 0 } := by
          cases p; simp_all
        rw [this]

/-- The full grid graph is connected. -/
theorem adjFull_connected {width height : Nat} {p q : Position}
    (hp : inBounds width height p) (hq : inBounds width height q) :
    Relation.ReflTransGen (AdjFull width height) p q := by
  have h1 := reach_origin width height _ p rfl hp
  have h2 := reach_origin width height _ q rfl hq
  exact h1.trans ((Relation.ReflTransGen.symmetric AdjFull.symm) h2)

/-- A set of cells containing one in-bounds cell and closed under grid
adjacency contains every in-bounds cell. -/
theorem closure_all {width height : Nat} {V : Finset Position}
    (hcl : ∀ v ∈ V, ∀ q, AdjFull width height v q → q ∈ V)
    {v₀ : Position} (hv₀ : v₀ ∈ V) (hb : inBounds width height v₀) :
    ∀ p, inBounds width height p → p ∈ V := by
  intro p hp
  have hpath := adjFull_connected hb hp
  induction hpath with
  | refl => exact hv₀
  | tail _ hstep ih =>
    exact hcl _ (ih hstep.1) _ hstep

/-! ## Position and wall lists -/

theorem mem_positionsList {width height : Nat} {p : Position} :
    p ∈ positionsList width height ↔ inBounds width height p := by
  constructor
  · intro hmem
    obtain ⟨a, ha, hmem2⟩ := List.mem_flatMap.mp hmem
    obtain ⟨b, hb, rfl⟩ := List.mem_map.mp hmem2
    rw [List.mem_range] at ha hb
    unfold inBounds
    dsimp only
    omega
  · rintro ⟨hx0, hxw, hy0, hyh⟩
    refine List.mem_flatMap.mpr ⟨p.x_coord.toNat, ?_,
      List.mem_map.mpr ⟨p.y_coord.toNat, ?_, ?_⟩⟩
    · rw [List.mem_range]; omega
    · rw [List.mem_range]; omega
    · cases p with
      | mk x y =>
        dsimp only at hx0 hxw hy0 hyh ⊢
        simp only [Position.mk.injEq]
        omega

theorem nodup_flatMap_disjoint {α β : Type} {l : List α} {f : α → List β}
    (hl : l.Nodup) (hf : ∀ a ∈ l, (f a).Nodup)
    (hdisj : ∀ a ∈ l, ∀ b ∈ l, a ≠ b → ∀ x, x ∈ f a → x ∉ f b) :
    (l.flatMap f).Nodup := by
  induction l with
  | nil => simp
  | cons a t ih =>
    rw [List.flatMap_cons, List.nodup_append]
    have hat : a ∉ t := (List.nodup_cons.mp hl).1
    refine ⟨hf a (List.mem_cons_self a t), ?_, ?_⟩
    · exact ih (List.nodup_cons.mp hl).2
        (fun b hb => hf b (List.mem_cons_of_mem a hb))
        (fun b hb c hc => hdisj b (List.mem_cons_of_mem a hb) c
          (List.mem_cons_of_mem a hc))
    · intro x hx hx'
      obtain ⟨b, hb, hxb⟩ := List.mem_flatMap.mp hx'
      have hab : a ≠ b := fun h => hat (h ▸ hb)
      exact hdisj a (List.mem_cons_self a t) b (List.mem_cons_of_mem a hb)
        hab x hx hxb

theorem nodup_positionsList (width height : Nat) :
    (positionsList width height).Nodup := by
  unfold positionsList
  refine nodup_flatMap_disjoint (List.nodup_range width)
    (fun a _ => ?_) (fun a _ b _ hab x hxa hxb => ?_)
  · refine List.Nodup.map ?_ (List.nodup_range height)
    intro y z hyz
    simpa using congrArg Position.y_coord hyz
  · obtain ⟨c, _, rfl⟩ := List.mem_map.mp hxa
    obtain ⟨c', _, he⟩ := List.mem_map.mp hxb
    exact hab (by simpa using (congrArg Position.x_coord he).symm)

theorem nodup_canonicalWalls (width height : Nat) :
    (canonicalWalls width height).Nodup := by
  refine nodup_flatMap_disjoint (nodup_positionsList width height)
    (fun p _ => List.Nodup.filter _ (by simp)) ?_
  intro p _ q _ hpq x hxp hxq
  have h1 := (List.mem_filter.mp hxp).1
  have h2 := (List.mem_filter.mp hxq).1
  simp only [List.mem_cons, List.not_mem_nil, or_false,
    List.mem_singleton] at h1 h2
  apply hpq
  rcases h1 with rfl | rfl <;> rcases h2 with he | he <;>
    exact congrArg Prod.fst he

theorem mem_canonicalWalls {width height : Nat} {p : Position} {d : Direction} :
    (p, d) ∈ canonicalWalls width height ↔
      inBounds width height p ∧ (d = .RIGHT ∨ d = .DOWN)
        ∧ inBounds width height (p.step d) := by
  unfold canonicalWalls
  rw [List.mem_flatMap]
  constructor
  · rintro ⟨q, hq, hmem⟩
    rw [List.mem_filter] at hmem
    obtain ⟨hmem1, hdec⟩ := hmem
    rw [mem_positionsList] at hq
    simp only [List.mem_cons, List.not_mem_nil, or_false,
      List.mem_singleton] at hmem1
    rcases hmem1 with he | he <;> injection he with h1 h2 <;> subst h1 <;>
      subst h2 <;> exact ⟨hq, by simp, by simpa using hdec⟩
  · rintro ⟨hp, hd, hstep⟩
    refine ⟨p, mem_positionsList.mpr hp, ?_⟩
    rw [List.mem_filter]
    refine ⟨?_, by simpa using hstep⟩
    rcases hd with rfl | rfl <;> simp

/-- Flipping the predicate from false to true at exactly one member of a
duplicate-free list increases `countP` by one. -/
theorem countP_flip_one {α : Type} {l : List α} (hnd : l.Nodup)
    {f g : α → Bool} {e : α} (he : e ∈ l) (hf : f e = false) (hg : g e = true)
    (hoth : ∀ x ∈ l, x ≠ e → g x = f x) : l.countP g = l.countP f + 1 := by
  induction l with
  | nil => cases he
  | cons a t ih =>
    rw [List.countP_cons, List.countP_cons]
    by_cases hea : e = a
    · subst hea
      have hat : e ∉ t := (List.nodup_cons.mp hnd).1
      have hcong : ∀ x ∈ t, g x = true ↔ f x = true := fun x hx => by
        rw [hoth x (List.mem_cons_of_mem e hx) (fun hxe => hat (hxe ▸ hx))]
      rw [hf, hg, List.countP_congr hcong]
      simp
    · have he' : e ∈ t := by
        rcases List.mem_cons.mp he with h | h
        · exact absurd h hea
        · exact h
      rw [hoth a (List.mem_cons_self a t) (fun h => hea h.symm)]
      rw [ih (List.nodup_cons.mp hnd).2 he'
        (fun x hx => hoth x (List.mem_cons_of_mem a hx))]
      omega

/-- The canonical representative of the wall opened by `open_wall p d`. -/
def canonWall (p : Position) (d : Direction) : Position × Direction :=
  match d with
  | .RIGHT => (p, .RIGHT)
  | .DOWN => (p, .DOWN)
  | .LEFT => (p.step .LEFT, .RIGHT)
  | .UP => (p.step .UP, .DOWN)

theorem canonWall_mem {width height : Nat} {p : Position} {d : Direction}
    (hp : inBounds width height p) (hq : inBounds width height (p.step d)) :
    canonWall p d ∈ canonicalWalls width height := by
  cases d <;> dsimp only [canonWall] <;> rw [mem_canonicalWalls]
  · exact ⟨hq, Or.inl rfl, by
      rw [show Direction.RIGHT = Direction.LEFT.reverse from rfl,
        Position.step_step_reverse]; exact hp⟩
  · exact ⟨hp, Or.inl rfl, hq⟩
  · exact ⟨hq, Or.inr rfl, by
      rw [show Direction.DOWN = Direction.UP.reverse from rfl,
        Position.step_step_reverse]; exact hp⟩
  · exact ⟨hp, Or.inr rfl, hq⟩

/-- On a symmetric grid the canonical representative carries the same
flag as the `(p, d)` side. -/
theorem isOpen_canonWall {g : CellGrid} (hs : WallSym g) (p : Position)
    (d : Direction) :
    g.isOpen (canonWall p d).1 (canonWall p d).2 = g.isOpen p d := by
  cases d
  · exact hs.isOpen_step p .LEFT
  · rfl
  · exact hs.isOpen_step p .UP
  · rfl

/-- Opening a closed wall of a symmetric grid increases the open-wall
count by exactly one. -/
theorem CellGrid.openWallCount_openWallUpd {g : CellGrid} {p : Position}
    {d : Direction} (hs : WallSym g) (hp : g.inB p) (hq : g.inB (p.step d))
    (hclosed : g.isOpen p d = false) :
    (g.openWallUpd p d).openWallCount = g.openWallCount + 1 := by
  unfold CellGrid.openWallCount
  rw [CellGrid.width_openWallUpd, CellGrid.height_openWallUpd]
  refine countP_flip_one (nodup_canonicalWalls _ _)
    (canonWall_mem hp hq) ?_ ?_ ?_
  · rw [isOpen_canonWall hs]
    exact hclosed
  · cases d <;> dsimp only [canonWall] <;>
      rw [CellGrid.isOpen_openWallUpd] <;>
      simp [Direction.reverse, Position.step_step_reverse]
  · rintro ⟨xp, xd⟩ hx hxe
    have hxd := (mem_canonicalWalls.mp hx).2.1
    dsimp only
    apply CellGrid.isOpen_openWallUpd_other
    · rintro ⟨rfl, rfl⟩
      rcases hxd with rfl | rfl <;> exact hxe rfl
    · rintro ⟨rfl, rfl⟩
      cases d
      · exact hxe rfl
      · simp [Direction.reverse] at hxd
      · exact hxe rfl
      · simp [Direction.reverse] at hxd

/-- `LayoutGenerator.is_border` exactly as written in `core.py` (lines
555–569): it compares `x_coord` against `height - 1` and `y_coord`
against `width - 1`. -/
def is_border (width height : Nat) (position : Position) : Bool :=
  position.x_coord == 0 || position.x_coord == (height : Int) - 1
    || position.y_coord == 0 || position.y_coord == (width : Int) - 1

/-- Border predicate as the spec words it: row/column `0` or the last
row/column. -/
def specIsBorder (width height : Nat) (position : Position) : Prop :=
  position.x_coord = 0 ∨ position.x_coord = (width : Int) - 1
    ∨ position.y_coord = 0 ∨ position.y_coord = (height : Int) - 1

instance (width height : Nat) (p : Position) :
    Decidable (specIsBorder width height p) := by
  unfold specIsBorder; infer_instance

/-! ## Grids built through the public mutators -/

/-- The two mutating operations a generator performs on a `CellGrid`. -/
inductive GridOp where
  | wallOp (p : Position) (d : Direction)
  | typeOp (p : Position) (t : CellType)

/-- Apply one operation; a failing `open_wall` raises in Python, which
aborts the run leaving the grid as it was, so the grid is returned
unchanged. -/
def applyOp (g : CellGrid) : GridOp → CellGrid
  | .wallOp p d =>
    match g.openWall p d with
    | .ok g' => g'
    | .error _ => g
  | .typeOp p t => g.setType p t

/-- A grid built from `CellGrid.__init__` by a sequence of operations. -/
def applyOps (g : CellGrid) (ops : List GridOp) : CellGrid :=
  ops.foldl applyOp g

theorem applyOp_dims (g : CellGrid) (op : GridOp) :
    (applyOp g op).width = g.width ∧ (applyOp g op).height = g.height := by
  cases op with
  | wallOp p d =>
    simp only [applyOp]
    rw [CellGrid.openWall_def]
    by_cases h : g.inB p ∧ g.inB (p.step d)
    · rw [if_pos h]
      exact ⟨rfl, rfl⟩
    · rw [if_neg h]
      exact ⟨rfl, rfl⟩
  | typeOp p t => exact ⟨rfl, rfl⟩

theorem applyOp_inv {g : CellGrid} (op : GridOp)
    (h : WallSym g ∧ ClosedOutward g) :
    WallSym (applyOp g op) ∧ ClosedOutward (applyOp g op) := by
  cases op with
  | wallOp p d =>
    simp only [applyOp]
    rw [CellGrid.openWall_def]
    by_cases hb : g.inB p ∧ g.inB (p.step d)
    · simp only [hb, if_true]
      exact ⟨h.1.openWallUpd_sym p d, h.2.openWallUpd_closed hb.1 hb.2⟩
    · simp only [hb, if_false]
      exact h
  | typeOp p t => exact ⟨h.1.setType_sym p t, h.2.setType_closed p t⟩

theorem applyOps_dims (g : CellGrid) (ops : List GridOp) :
    (applyOps g ops).width = g.width ∧ (applyOps g ops).height = g.height := by
  induction ops generalizing g with
  | nil => exact ⟨rfl, rfl⟩
  | cons op rest ih =>
    have h1 := applyOp_dims g op
    have h2 := ih (applyOp g op)
    exact ⟨h2.1.trans h1.1, h2.2.trans h1.2⟩

theorem applyOps_inv {g : CellGrid} (ops : List GridOp)
    (h : WallSym g ∧ ClosedOutward g) :
    WallSym (applyOps g ops) ∧ ClosedOutward (applyOps g ops) := by
  induction ops generalizing g with
  | nil => exact h
  | cons op rest ih => exact ih (applyOp_inv op h)

/-- A wall facing outside the grid must be closed in a grid that only
went through `open_wall`. -/
theorem ClosedOutward.isOpen_eq_false {g : CellGrid} (hc : ClosedOutward g)
    {p : Position} {d : Direction} (h : ¬g.inB (p.step d)) :
    g.isOpen p d = false := by
  cases hopen : g.isOpen p d
  · rfl
  · exact absurd (hc p d hopen).2 h

/-! ## Layout access lemmas -/

theorem Layout.rows_length_set (l : Layout) (p : Position) (t : CellType) :
    (l.set p t).rows.length = l.rows.length :=
  List.length_set ..

theorem getD_set_ne {A : Type} (l : List A) (n m : Nat) (a d : A)
    (h : n ≠ m) : (l.set n a).getD m d = l.getD m d := by
  rw [List.getD_eq_getElem?_getD, List.getD_eq_getElem?_getD,
    List.getElem?_set_ne h]

theorem getD_set_self {A : Type} (l : List A) (n : Nat) (a d : A)
    (h : n < l.length) : (l.set n a).getD n d = a := by
  rw [List.getD_eq_getElem?_getD, List.getElem?_set_eq_of_lt _ h]
  rfl

theorem getD_replicate_eq {A : Type} (n m : Nat) (a d : A) :
    (List.replicate n a).getD m d = if m < n then a else d := by
  rw [List.getD_eq_getElem?_getD, List.getElem?_replicate]
  by_cases h : m < n <;> simp [h]

theorem getD_nil_eq {A : Type} (m : Nat) (d : A) :
    (List.nil : List A).getD m d = d := by
  rw [List.getD_eq_getElem?_getD]
  simp

theorem Layout.get_set_ne (l : Layout) (p : Position) (t : CellType)
    (j i : Nat) (h : ¬(p.y_coord.toNat = j ∧ p.x_coord.toNat = i)) :
    (l.set p t).get j i = l.get j i := by
  unfold Layout.set Layout.get
  dsimp only
  by_cases hy : p.y_coord.toNat = j
  · subst hy
    have hx : p.x_coord.toNat ≠ i := fun hx => h ⟨rfl, hx⟩
    by_cases hlen : p.y_coord.toNat < l.rows.length
    · rw [getD_set_self _ _ _ _ hlen, getD_set_ne _ _ _ _ _ hx]
    · rw [List.set_eq_of_length_le (by omega)]
  · rw [getD_set_ne _ _ _ _ _ hy]

theorem Layout.row_length_set (l : Layout) (p : Position) (t : CellType)
    (i : Nat) :
    ((l.set p t).rows.getD i []).length = (l.rows.getD i []).length := by
  unfold Layout.set
  dsimp only
  by_cases hy : p.y_coord.toNat = i
  · subst hy
    by_cases hlen : p.y_coord.toNat < l.rows.length
    · rw [getD_set_self _ _ _ _ hlen, List.length_set]
    · rw [List.set_eq_of_length_le (by omega)]
  · rw [getD_set_ne _ _ _ _ _ hy]

theorem Layout.get_init (w h : Nat) (j i : Nat) :
    (Layout.init w h .WALL).get j i = .WALL := by
  unfold Layout.init Layout.get
  dsimp only
  rw [getD_replicate_eq]
  by_cases hj : j < h
  · rw [if_pos hj, getD_replicate_eq]
    by_cases hi : i < w
    · rw [if_pos hi]
    · rw [if_neg hi]
  · rw [if_neg hj, getD_nil_eq]

theorem Layout.rows_length_init (w h : Nat) (t : CellType) :
    (Layout.init w h t).rows.length = h :=
  List.length_replicate ..

theorem Layout.row_length_init (w h : Nat) (t : CellType) (i : Nat)
    (hi : i < h) : ((Layout.init w h t).rows.getD i []).length = w := by
  unfold Layout.init
  dsimp only
  rw [getD_replicate_eq, if_pos hi, List.length_replicate]

theorem Layout.get_ite_set (l : Layout) (c : Bool) (p : Position)
    (t : CellType) (j i : Nat)
    (h : c = true → ¬(p.y_coord.toNat = j ∧ p.x_coord.toNat = i)) :
    (if c then l.set p t else l).get j i = l.get j i := by
  cases c
  · rfl
  · exact Layout.get_set_ne l p t j i (h rfl)

theorem Layout.rows_length_ite_set (l : Layout) (c : Bool) (p : Position)
    (t : CellType) :
    (if c then l.set p t else l).rows.length = l.rows.length := by
  cases c
  · rfl
  · exact Layout.rows_length_set l p t

theorem Layout.row_length_ite_set (l : Layout) (c : Bool) (p : Position)
    (t : CellType) (i : Nat) :
    ((if c then l.set p t else l).rows.getD i []).length =
      (l.rows.getD i []).length := by
  cases c
  · rfl
  · exact Layout.row_length_set l p t i

/-- `foldl` preserves an invariant preserved by each step. -/
theorem foldl_preserve {α β : Type} (P : β → Prop) (f : β → α → β)
    (l : List α) (hstep : ∀ b a, a ∈ l → P b → P (f b a)) (b : β)
    (hb : P b) : P (l.foldl f b) := by
  induction l generalizing b with
  | nil => exact hb
  | cons a t ih =>
    exact ih (fun b' a' ha' => hstep b' a' (List.mem_cons_of_mem a ha'))
      _ (hstep b a (List.mem_cons_self a t) hb)

theorem writeCell_rows_length (g : CellGrid) (l : Layout) (x y : Nat) :
    (g.writeCell l x y).rows.length = l.rows.length := by
  unfold CellGrid.writeCell
  dsimp only
  rw [Layout.rows_length_ite_set, Layout.rows_length_ite_set,
    Layout.rows_length_ite_set, Layout.rows_length_ite_set,
    Layout.rows_length_set]

theorem writeCell_row_length (g : CellGrid) (l : Layout) (x y i : Nat) :
    ((g.writeCell l x y).rows.getD i []).length =
      (l.rows.getD i []).length := by
  unfold CellGrid.writeCell
  dsimp only
  rw [Layout.row_length_ite_set, Layout.row_length_ite_set,
    Layout.row_length_ite_set, Layout.row_length_ite_set,
    Layout.row_length_set]

/-- A layout cell targeted by none of the five writes of `writeCell` is
unchanged. -/
theorem get_writeCell_untouched (g : CellGrid) (l : Layout) (x y j i : Nat)
    (hc : ¬(j = 2 * y + 1 ∧ i = 2 * x + 1))
    (hl : g.isOpen { x_coord := (x : Int), y_coord := (y : Int) } .LEFT = true →
      ¬(j = 2 * y + 1 ∧ i = 2 * x))
    (hr : g.isOpen { x_coord := (x : Int), y_coord := (y : Int) } .RIGHT = true →
      ¬(j = 2 * y + 1 ∧ i = 2 * x + 2))
    (hu : g.isOpen { x_coord := (x : Int), y_coord := (y : Int) } .UP = true →
      ¬(j = 2 * y ∧ i = 2 * x + 1))
    (hd : g.isOpen { x_coord := (x : Int), y_coord := (y : Int) } .DOWN = true →
      ¬(j = 2 * y + 2 ∧ i = 2 * x + 1)) :
    (g.writeCell l x y).get j i = l.get j i := by
  unfold CellGrid.writeCell
  dsimp only
  rw [Layout.get_ite_set _ _ _ _ _ _ (fun hb hcon => by
    refine hd hb ?_
    have h1 := hcon.1
    have h2 := hcon.2
    unfold Position.down at h1 h2
    dsimp only at h1 h2
    exact ⟨by omega, by omega⟩)]
  rw [Layout.get_ite_set _ _ _ _ _ _ (fun hb hcon => by
    refine hu hb ?_
    have h1 := hcon.1
    have h2 := hcon.2
    unfold Position.up at h1 h2
    dsimp only at h1 h2
    exact ⟨by omega, by omega⟩)]
  rw [Layout.get_ite_set _ _ _ _ _ _ (fun hb hcon => by
    refine hr hb ?_
    have h1 := hcon.1
    have h2 := hcon.2
    unfold Position.right at h1 h2
    dsimp only at h1 h2
    exact ⟨by omega, by omega⟩)]
  rw [Layout.get_ite_set _ _ _ _ _ _ (fun hb hcon => by
    refine hl hb ?_
    have h1 := hcon.1
    have h2 := hcon.2
    unfold Position.left at h1 h2
    dsimp only at h1 h2
    exact ⟨by omega, by omega⟩)]
  refine Layout.get_set_ne _ _ _ _ _ (fun hcon => by
    refine hc ?_
    have h1 := hcon.1
    have h2 := hcon.2
    dsimp only at h1 h2
    exact ⟨by omega, by omega⟩)

/-- Border cells of the doubled layout are never written by `to_layout`
when every open wall joins two in-bounds cells. -/
theorem toLayout_border_wall {g : CellGrid} (hco : ClosedOutward g)
    {j i : Nat} (hj : j ≤ 2 * g.height) (hi : i ≤ 2 * g.width)
    (hborder : j = 0 ∨ j = 2 * g.height ∨ i = 0 ∨ i = 2 * g.width) :
    g.toLayout.get j i = .WALL := by
  unfold CellGrid.toLayout
  refine foldl_preserve (fun (l : Layout) => l.get j i = .WALL) _ _ ?_ _
    (Layout.get_init _ _ j i)
  intro l y hy hl
  rw [List.mem_range] at hy
  refine foldl_preserve (fun (l2 : Layout) => l2.get j i = .WALL) _ _ ?_ _ hl
  intro l2 x hx hl2
  rw [List.mem_range] at hx
  rw [← hl2]
  have houtL : (x : Nat) = 0 →
      g.isOpen { x_coord := (x : Int), y_coord := (y : Int) } .LEFT = false := by
    intro hx0
    refine hco.isOpen_eq_false ?_
    subst hx0
    intro hin
    have := hin.1
    unfold Position.step Position.add Direction.toPos at this
    dsimp only at this
    omega
  have houtR : (x : Nat) = g.width - 1 →
      g.isOpen { x_coord := (x : Int), y_coord := (y : Int) } .RIGHT = false := by
    intro hx0
    refine hco.isOpen_eq_false ?_
    intro hin
    have h1 := hin.1
    have h2 := hin.2.1
    unfold Position.step Position.add Direction.toPos at h1 h2
    dsimp only at h1 h2
    omega
  have houtU : (y : Nat) = 0 →
      g.isOpen { x_coord := (x : Int), y_coord := (y : Int) } .UP = false := by
    intro hy0
    refine hco.isOpen_eq_false ?_
    subst hy0
    intro hin
    have := hin.2.2.1
    unfold Position.step Position.add Direction.toPos at this
    dsimp only at this
    omega
  have houtD : (y : Nat) = g.height - 1 →
      g.isOpen { x_coord := (x : Int), y_coord := (y : Int) } .DOWN = false := by
    intro hy0
    refine hco.isOpen_eq_false ?_
    intro hin
    have h1 := hin.2.2.1
    have h2 := hin.2.2.2
    unfold Position.step Position.add Direction.toPos at h1 h2
    dsimp only at h1 h2
    omega
  refine get_writeCell_untouched g l2 x y j i ?_ ?_ ?_ ?_ ?_
  · rintro ⟨rfl, rfl⟩
    rcases hborder with h | h | h | h <;> omega
  · intro hb
    rintro ⟨rfl, rfl⟩
    rcases hborder with h | h | h | h
    · omega
    · omega
    · rw [houtL (by omega)] at hb; cases hb
    · omega
  · intro hb
    rintro ⟨rfl, rfl⟩
    rcases hborder with h | h | h | h
    · omega
    · omega
    · omega
    · rw [houtR (by omega)] at hb; cases hb
  · intro hb
    rintro ⟨rfl, rfl⟩
    rcases hborder with h | h | h | h
    · rw [houtU (by omega)] at hb; cases hb
    · omega
    · omega
    · omega
  · intro hb
    rintro ⟨rfl, rfl⟩
    rcases hborder with h | h | h | h
    · omega
    · rw [houtD (by omega)] at hb; cases hb
    · omega
    · omega

theorem toLayout_rows_length (g : CellGrid) :
    g.toLayout.rows.length = 2 * g.height + 1 := by
  unfold CellGrid.toLayout
  refine foldl_preserve (fun (l : Layout) => l.rows.length = 2 * g.height + 1) _ _ ?_ _
    (Layout.rows_length_init _ _ _)
  intro l y _ hl
  refine foldl_preserve (fun (l2 : Layout) => l2.rows.length = 2 * g.height + 1) _ _ ?_ _ hl
  intro l2 x _ hl2
  rw [writeCell_rows_length]
  exact hl2

theorem toLayout_row_length (g : CellGrid) (i : Nat)
    (hi : i < 2 * g.height + 1) :
    (g.toLayout.rows.getD i []).length = 2 * g.width + 1 := by
  unfold CellGrid.toLayout
  refine foldl_preserve
    (fun (l : Layout) => (l.rows.getD i []).length = 2 * g.width + 1) _ _ ?_ _
    (Layout.row_length_init _ _ _ i hi)
  intro l y _ hl
  refine foldl_preserve
    (fun (l2 : Layout) => (l2.rows.getD i []).length = 2 * g.width + 1) _ _ ?_ _ hl
  intro l2 x _ hl2
  rw [writeCell_row_length]
  exact hl2

/-! ## Neighbor enumeration -/

theorem Direction.mem_all (d : Direction) : d ∈ Direction.all := by
  cases d <;> simp [Direction.all]

theorem mem_getNeighbors {g : CellGrid} {pos q : Position} {d : Direction} :
    (q, d) ∈ g.getNeighbors pos ↔ q = pos.step d ∧ g.inB q := by
  unfold CellGrid.getNeighbors
  rw [List.mem_filter]
  simp only [List.mem_map]
  constructor
  · rintro ⟨⟨e, _, heq⟩, hfil⟩
    injection heq with h1 h2
    subst h2
    subst h1
    refine ⟨rfl, ?_⟩
    rw [← isOutOfBounds_eq_false_iff]
    simpa using hfil
  · rintro ⟨rfl, hq⟩
    refine ⟨⟨d, Direction.mem_all d, rfl⟩, ?_⟩
    simp [(isOutOfBounds_eq_false_iff g (pos.step d)).mpr hq]

/-! ## Independent-probability carving (`randgen.py`)

`Random.random()` draws are modelled as a stream of rationals indexed by
a running counter (Python floats in `[0,1)` embed exactly into `ℚ`, and
the single comparison `random() < wall_probability` is exact for the
boundary value `1.0`). -/

/-- Inner loop of `RandomLayoutGenerator._generate_plain_layout`: one
`random()` draw per neighbor of `position`, opening the wall when the
draw is below `wall_probability`. -/
def randOpenNeighbors (wall_probability : ℚ) (stream : Nat → ℚ)
    (position : Position) :
    CellGrid → Nat → List (Position × Direction) →
      Except String (CellGrid × Nat)
  | g, k, [] => .ok (g, k)
  | g, k, (_, direction) :: rest =>
    if stream k < wall_probability then
      match g.openWall position direction with
      | .ok g' => randOpenNeighbors wall_probability stream position g' (k + 1) rest
      | .error msg => .error msg
    else randOpenNeighbors wall_probability stream position g (k + 1) rest

/-- Outer loop of `RandomLayoutGenerator._generate_plain_layout`:
`itertools.product(range(width), range(height))` enumerates the same
positions, `x` outer and `y` inner, as `positionsList`. -/
def randCarveLoop (wall_probability : ℚ) (stream : Nat → ℚ) :
    List Position → CellGrid × Nat → Except String (CellGrid × Nat)
  | [], st => .ok st
  | position :: rest, (g, k) =>
    match randOpenNeighbors wall_probability stream position g k
        (g.getNeighbors position) with
    | .ok st' => randCarveLoop wall_probability stream rest st'
    | .error msg => .error msg

/-- The wall-carving part of `RandomLayoutGenerator._generate_plain_layout`
run on the freshly initialised grid `generate_layout` hands it. -/
def randCarve (width height : Nat) (wall_probability : ℚ)
    (stream : Nat → ℚ) : Except String CellGrid :=
  (randCarveLoop wall_probability stream (positionsList width height)
    (CellGrid.init width height .EMPTY, 0)).map Prod.fst

theorem CellGrid.inB_of_dims {g g' : CellGrid} (hw : g'.width = g.width)
    (hh : g'.height = g.height) (p : Position) : g'.inB p ↔ g.inB p := by
  unfold CellGrid.inB
  rw [hw, hh]

theorem randOpenNeighbors_one_spec (stream : Nat → ℚ)
    (hstr : ∀ k, stream k < 1) (pos : Position) :
    ∀ (ns : List (Position × Direction)) (g : CellGrid) (k : Nat),
      g.inB pos → (∀ x ∈ ns, x.1 = pos.step x.2 ∧ g.inB x.1) →
      ∃ g' k', randOpenNeighbors 1 stream pos g k ns = .ok (g', k')
        ∧ g'.width = g.width ∧ g'.height = g.height
        ∧ (∀ q e, g.isOpen q e = true → g'.isOpen q e = true)
        ∧ (∀ x ∈ ns, g'.isOpen pos x.2 = true) := by
  intro ns
  induction ns with
  | nil =>
    intro g k _ _
    exact ⟨g, k, rfl, rfl, rfl, fun _ _ h => h, by simp⟩
  | cons x rest ih =>
    intro g k hpos hns
    obtain ⟨q, d⟩ := x
    have hx := hns (q, d) (List.mem_cons_self _ _)
    have hq : g.inB (pos.step d) := hx.1 ▸ hx.2
    have hok : g.openWall pos d = .ok (g.openWallUpd pos d) :=
      (g.openWall_eq_ok_iff pos d _).mpr ⟨⟨hpos, hq⟩, rfl⟩
    obtain ⟨g', k', heq, hw, hh, hmono, hopen⟩ :=
      ih (g.openWallUpd pos d) (k + 1) hpos
        (fun y hy => ⟨(hns y (List.mem_cons_of_mem _ hy)).1,
          (hns y (List.mem_cons_of_mem _ hy)).2⟩)
    refine ⟨g', k', ?_, hw, hh, ?_, ?_⟩
    · simp only [randOpenNeighbors]
      rw [if_pos (hstr k), hok]
      exact heq
    · intro a e h
      exact hmono a e (g.isOpen_mono_openWallUpd pos d h)
    · intro y hy
      rcases List.mem_cons.mp hy with rfl | hy'


      · exact hmono pos d (g.isOpen_openWallUpd_self pos d)
      · exact hopen y hy'

theorem randCarveLoop_one_spec (stream : Nat → ℚ)
    (hstr : ∀ k, stream k < 1) :
    ∀ (ps : List Position) (g : CellGrid) (k : Nat), (∀ p ∈ ps, g.inB p) →
      ∃ g' k', randCarveLoop 1 stream ps (g, k) = .ok (g', k')
        ∧ g'.width = g.width ∧ g'.height = g.height
        ∧ (∀ q e, g.isOpen q e = true → g'.isOpen q e = true)
        ∧ (∀ p ∈ ps, ∀ d, g.inB (p.step d) → g'.isOpen p d = true) := by
  intro ps
  induction ps with
  | nil =>
    intro g k _
    exact ⟨g, k, rfl, rfl, rfl, fun _ _ h => h, by simp⟩
  | cons p rest ih =>
    intro g k hps
    have hp : g.inB p := hps p (List.mem_cons_self _ _)
    obtain ⟨g1, k1, heq1, hw1, hh1, hmono1, hopen1⟩ :=
      randOpenNeighbors_one_spec stream hstr p (g.getNeighbors p) g k hp
        (by
          rintro ⟨a, e⟩ ha
          have := mem_getNeighbors.mp ha
          exact ⟨this.1, this.2⟩)
    obtain ⟨g', k', heq2, hw2, hh2, hmono2, hopen2⟩ :=
      ih g1 k1 (fun a ha =>
        (CellGrid.inB_of_dims hw1 hh1 a).mpr (hps a (List.mem_cons_of_mem _ ha)))
    refine ⟨g', k', ?_, hw2.trans hw1, hh2.trans hh1, ?_, ?_⟩
    · simp only [randCarveLoop]
      rw [heq1]
      exact heq2
    · intro a e h
      exact hmono2 a e (hmono1 a e h)
    · intro a ha d hstep
      rcases List.mem_cons.mp ha with rfl | ha'
      · refine hmono2 a d (hopen1 (a.step d, d) ?_)
        exact mem_getNeighbors.mpr ⟨rfl, hstep⟩
      · exact hopen2 a ha' d ((CellGrid.inB_of_dims hw1 hh1 _).mpr hstep)

/-! ## Cycle pass

Modelled from the spec: the post-carving cycle pass (§4.3 step 3) is
code of this repository missing from `src/` — `cli.py` passes
`cycle_probability` to all four generator constructors, but
`LayoutGenerator.__init__` in `src/core.py` does not accept it and no
file in `src/` implements the pass (`constants.py`, defining
`DEFAULT_CYCLE_PROBABILITY`, is also absent).  Per the spec the pass is
"one more pass over every cell/direction pair opening the wall
independently with that probability". -/

/-- Modelled from the spec: the inner loop of the cycle pass — one draw
per (cell, in-bounds-direction) pair, opening that wall when the draw is
below `cycle_probability`. -/
def cyclePassNeighbors (cycle_probability : ℚ) (stream : Nat → ℚ)
    (position : Position) :
    CellGrid → Nat → List (Position × Direction) → CellGrid × Nat
  | g, k, [] => (g, k)
  | g, k, (_, direction) :: rest =>
    if stream k < cycle_probability then
      cyclePassNeighbors cycle_probability stream position
        (g.openWallUpd position direction) (k + 1) rest
    else cyclePassNeighbors cycle_probability stream position g (k + 1) rest

/-- Modelled from the spec: the outer loop of the cycle pass over every
cell. -/
def cyclePassLoop (cycle_probability : ℚ) (stream : Nat → ℚ) :
    List Position → CellGrid × Nat → CellGrid × Nat
  | [], st => st
  | position :: rest, (g, k) =>
    cyclePassLoop cycle_probability stream rest
      (cyclePassNeighbors cycle_probability stream position g k
        (g.getNeighbors position))

/-- Modelled from the spec: the post-carving cycle pass applied to a
carved grid. -/
def cyclePass (cycle_probability : ℚ) (stream : Nat → ℚ)
    (g : CellGrid) : CellGrid :=
  (cyclePassLoop cycle_probability stream
    (positionsList g.width g.height) (g, 0)).1

theorem cyclePassNeighbors_one_spec (stream : Nat → ℚ)
    (hstr : ∀ k, stream k < 1) (pos : Position) :
    ∀ (ns : List (Position × Direction)) (g : CellGrid) (k : Nat),
      (cyclePassNeighbors 1 stream pos g k ns).1.width = g.width
      ∧ (cyclePassNeighbors 1 stream pos g k ns).1.height = g.height
      ∧ (∀ q e, g.isOpen q e = true →
          (cyclePassNeighbors 1 stream pos g k ns).1.isOpen q e = true)
      ∧ (∀ x ∈ ns,
          (cyclePassNeighbors 1 stream pos g k ns).1.isOpen pos x.2 = true) := by
  intro ns
  induction ns with
  | nil =>
    intro g k
    exact ⟨rfl, rfl, fun _ _ h => h, by simp⟩
  | cons x rest ih =>
    intro g k
    obtain ⟨q, d⟩ := x
    have hstep : cyclePassNeighbors 1 stream pos g k ((q, d) :: rest) =
        cyclePassNeighbors 1 stream pos (g.openWallUpd pos d) (k + 1) rest := by
      simp only [cyclePassNeighbors]
      rw [if_pos (hstr k)]
    obtain ⟨hw, hh, hmono, hopen⟩ := ih (g.openWallUpd pos d) (k + 1)
    rw [hstep]
    refine ⟨hw, hh, ?_, ?_⟩
    · intro a e h
      exact hmono a e (g.isOpen_mono_openWallUpd pos d h)
    · intro y hy
      rcases List.mem_cons.mp hy with rfl | hy'
      · exact hmono pos d (g.isOpen_openWallUpd_self pos d)
      · exact hopen y hy'

theorem cyclePassLoop_one_spec (stream : Nat → ℚ)
    (hstr : ∀ k, stream k < 1) :
    ∀ (ps : List Position) (g : CellGrid) (k : Nat),
      (cyclePassLoop 1 stream ps (g, k)).1.width = g.width
      ∧ (cyclePassLoop 1 stream ps (g, k)).1.height = g.height
      ∧ (∀ q e, g.isOpen q e = true →
          (cyclePassLoop 1 stream ps (g, k)).1.isOpen q e = true)
      ∧ (∀ p ∈ ps, ∀ d, g.inB (p.step d) →
          (cyclePassLoop 1 stream ps (g, k)).1.isOpen p d = true) := by
  intro ps
  induction ps with
  | nil =>
    intro g k
    exact ⟨rfl, rfl, fun _ _ h => h, by simp⟩
  | cons p rest ih =>
    intro g k
    obtain ⟨hw1, hh1, hmono1, hopen1⟩ :=
      cyclePassNeighbors_one_spec stream hstr p (g.getNeighbors p) g k
    obtain ⟨st1, k1, hq⟩ :
        ∃ st1 k1, cyclePassNeighbors 1 stream p g k (g.getNeighbors p) =
          (st1, k1) :=
      ⟨_, _, rfl⟩
    have hloop : cyclePassLoop 1 stream (p :: rest) (g, k) =
        cyclePassLoop 1 stream rest
          (cyclePassNeighbors 1 stream p g k (g.getNeighbors p)) := by
      simp only [cyclePassLoop]
    rw [hq] at hw1 hh1 hmono1 hopen1
    rw [hloop, hq]
    obtain ⟨hw2, hh2, hmono2, hopen2⟩ := ih st1 k1
    refine ⟨hw2.trans hw1, hh2.trans hh1, ?_, ?_⟩
    · intro a e h
      exact hmono2 a e (hmono1 a e h)
    · intro a ha d hstep
      rcases List.mem_cons.mp ha with rfl | ha'
      · refine hmono2 a d (hopen1 (a.step d, d) ?_)
        exact mem_getNeighbors.mpr ⟨rfl, hstep⟩
      · exact hopen2 a ha' d ((CellGrid.inB_of_dims hw1 hh1 _).mpr hstep)

/-! ## Orchestration (`LayoutGenerator` in `core.py`)

The seeded `random.Random` instance is modelled by an abstract state
type `σ` with primitives `randint` (inclusive bounds, as in Python) and
`shuffle_positions` (for `random.shuffle` inside `fill_with_food`); a
seed determines the initial state.  The strategy hook
`_generate_plain_layout` is an abstract function consuming the grid and
the random state.  Python's unbounded rejection-sampling loops carry a
fuel parameter and return `none` when it runs out. -/

/-- `ProblemType` from `core.py`. -/
inductive ProblemType where
  | FOOD
  | SEARCH
  | CORNERS
deriving DecidableEq, Repr

/-- The `while not_ok` rejection loop of `LayoutGenerator.random_position`
(`core.py` lines 519–535), including the swapped width/height arguments
of the resampling call, exactly as in the source. -/
def randomPositionLoop {σ : Type} (randint : σ → Int → Int → Int × σ)
    (width height : Nat) (no_border : Bool) (forbidden : List Position) :
    Nat → Position → σ → Option (Position × σ)
  | fuel, rand_pos, s =>
    if (is_border width height rand_pos && no_border)
        || decide (rand_pos ∈ forbidden) then
      match fuel with
      | 0 => none
      | fuel' + 1 =>
        let a := randint s 1 ((height : Int) - 2)
        let b := randint a.2 1 ((width : Int) - 2)
        randomPositionLoop randint width height no_border forbidden fuel'
          { x_coord := a.1, y_coord := b.1 } b.2
    else some (rand_pos, s)

/-- `LayoutGenerator.random_position`. -/
def randomPosition {σ : Type} (randint : σ → Int → Int → Int × σ)
    (width height : Nat) (fuel : Nat) (no_border : Bool)
    (forbidden : List Position) (s : σ) : Option (Position × σ) :=
  let x := randint s 0 ((width : Int) - 1)
  let y := randint x.2 0 ((height : Int) - 1)
  randomPositionLoop randint width height no_border forbidden fuel
    { x_coord := x.1, y_coord := y.1 } y.2

/-- `LayoutGenerator.random_positions`: rejection-sample until `count`
distinct positions are collected. -/
def randomPositionsLoop {σ : Type} (randint : σ → Int → Int → Int × σ)
    (width height : Nat) (pos_fuel : Nat) (count : Nat) (no_border : Bool) :
    Nat → List Position → σ → Option (List Position × σ)
  | fuel, positions, s =>
    if count ≤ positions.length then some (positions, s)
    else
      match fuel with
      | 0 => none
      | fuel' + 1 =>
        match randomPosition randint width height pos_fuel no_border [] s with
        | none => none
        | some (position, s') =>
          randomPositionsLoop randint width height pos_fuel count no_border
            fuel'
            (if position ∈ positions then positions else positions ++ [position])
            s'

/-- `LayoutGenerator.get_corners`. -/
def getCorners (width height : Nat) : List Position :=
  [ { x_coord := 0, y_coord := 0 },
    { x_coord := 0, y_coord := (height : Int) - 1 },
    { x_coord := (width : Int) - 1, y_coord := 0 },
    { x_coord := (width : Int) - 1, y_coord := (height : Int) - 1 } ]

/-- The empty-cell comprehension of `Layout.fill_with_food` (`y` outer,
`x` inner over the rows). -/
def emptyCells (l : Layout) : List Position :=
  l.rows.enum.flatMap fun y_row =>
    y_row.2.enum.filterMap fun x_cell =>
      if x_cell.2 = .EMPTY then
        some { x_coord := (x_cell.1 : Int), y_coord := (y_row.1 : Int) }
      else none

/-- The `while max_food > 0 and empty_cells` loop of `fill_with_food`,
popping candidates from the end of the shuffled list. -/
def fillFoodLoop : Nat → List Position → Layout → Layout
  | 0, _, l => l
  | n + 1, cells, l =>
    match cells.getLast? with
    | none => l
    | some p => fillFoodLoop n cells.dropLast (l.set p .FOOD)

/-- `Layout.fill_with_food`. -/
def fillWithFood {σ : Type}
    (shuffle_positions : σ → List Position → List Position × σ)
    (max_food : Int) (l : Layout) (s : σ) : Layout × σ :=
  let shuffled := shuffle_positions s (emptyCells l)
  let n : Nat := if max_food > 0 then max_food.toNat else shuffled.1.length
  (fillFoodLoop n shuffled.1 l, shuffled.2)

/-- `LayoutGenerator.generate_layout` (`core.py` lines 449–487): pick
agent/food cells per problem type, assign their cell types, hand the
grid to the strategy's `_generate_plain_layout`, and scatter food for
the FOOD problem type. -/
def generateLayout {σ : Type} (randint : σ → Int → Int → Int × σ)
    (shuffle_positions : σ → List Position → List Position × σ)
    (strategy : CellGrid → σ → Option (Layout × σ))
    (width height : Nat) (pos_fuel : Nat) (problem_type : ProblemType)
    (max_food : Int) (s : σ) : Option Layout :=
  let grid := CellGrid.init width height .EMPTY
  let picked : Option ((Position × List Position) × σ) :=
    match problem_type with
    | .SEARCH =>
      match randomPosition randint width height pos_fuel false [] s with
      | none => none
      | some (pacman_pos, s1) =>
        match randomPosition randint width height pos_fuel false
            [pacman_pos] s1 with
        | none => none
        | some (food, s2) => some ((pacman_pos, [food]), s2)
    | .CORNERS =>
      match randomPosition randint width height pos_fuel false
          (getCorners width height) s with
      | none => none
      | some (pacman_pos, s1) =>
        some ((pacman_pos, getCorners width height), s1)
    | .FOOD =>
      match randomPosition randint width height pos_fuel false [] s with
      | none => none
      | some (pacman_pos, s1) => some ((pacman_pos, []), s1)
  match picked with
  | none => none
  | some ((pacman_pos, food_pos), s') =>
    let grid1 := grid.setType pacman_pos .PACMAN
    let grid2 := food_pos.foldl (fun g pos => g.setType pos .FOOD) grid1
    match strategy grid2 s' with
    | none => none
    | some (layout, s'') =>
      if problem_type = .FOOD then
        some (fillWithFood shuffle_positions max_food layout s'').1
      else some layout

/-! ## Randomized Kruskal carving (`kruskal.py`)

`self.rand.shuffle(walls)` is modelled by quantifying over every list
that is a permutation of the wall list, which covers the shuffle result
of every seed. -/

/-- The `walls` list of `KruskalLayoutGenerator.generate_layout`: every
`(position, direction)` with an in-bounds neighbor, built over the fresh
grid. -/
def kruskalWalls (width height : Nat) : List (Position × Direction) :=
  (positionsList width height).flatMap fun position =>
    ((CellGrid.init width height .EMPTY).getNeighbors position).map
      fun nd => (position, nd.2)

/-- The mutable state of the Kruskal loop: the grid, the `cell_set`
dictionary (position to set index) and the `set_cells` list (set index
to its members). -/
structure KruskalState where
  grid : CellGrid
  cellSet : Position → Nat
  setCells : List (Finset Position)

/-- `cell_set = {position: idx for idx, position in enumerate(positions)}`. -/
def kruskalInit (width height : Nat) : KruskalState :=
  { grid := CellGrid.init width height .EMPTY
    cellSet := fun p => (positionsList width height).indexOf p
    setCells := (positionsList width height).map fun p => ({p} : Finset Position) }

/-- One iteration of the `while walls` loop body. -/
def kruskalStep (st : KruskalState) (position : Position)
    (direction : Direction) : Except String KruskalState :=
  let neighbor := position.step direction
  let pIdx := st.cellSet position
  let nIdx := st.cellSet neighbor
  if pIdx ≠ nIdx then
    match st.grid.openWall position direction with
    | .error msg => .error msg
    | .ok grid' =>
      let newIdx := min pIdx nIdx
      let newSet := st.setCells.getD pIdx ∅ ∪ st.setCells.getD nIdx ∅
      let isP := pIdx = newIdx
      .ok { grid := grid'
            cellSet := fun pos => if pos ∈ newSet then newIdx else st.cellSet pos
            setCells := (st.setCells.set pIdx
                (if isP then newSet else ∅)).set nIdx
              (if isP then ∅ else newSet) }
  else .ok st

/-- The `while walls` loop, popping from the end of the shuffled list. -/
def kruskalLoop (walls : List (Position × Direction)) (st : KruskalState) :
    Except String KruskalState :=
  match hw : walls.getLast? with
  | none => .ok st
  | some pd =>
    match kruskalStep st pd.1 pd.2 with
    | .error msg => .error msg
    | .ok st' => kruskalLoop walls.dropLast st'
termination_by walls.length
decreasing_by
  simp only [List.length_dropLast]
  have hne : walls ≠ [] := by
    intro h
    subst h
    simp at hw
  have hpos : 0 < walls.length := List.length_pos.mpr hne
  omega

/-- The wall-carving part of `KruskalLayoutGenerator.generate_layout`,
parametrised by the shuffled wall list. -/
def kruskalCarve (width height : Nat)
    (shuffledWalls : List (Position × Direction)) :
    Except String KruskalState :=
  kruskalLoop shuffledWalls (kruskalInit width height)

theorem kruskalLoop_nil (st : KruskalState) : kruskalLoop [] st = .ok st := by
  rw [kruskalLoop]
  rfl

theorem kruskalLoop_concat (l : List (Position × Direction))
    (e : Position × Direction) (st : KruskalState) :
    kruskalLoop (l ++ [e]) st =
      match kruskalStep st e.1 e.2 with
      | .error msg => .error msg
      | .ok st' => kruskalLoop l st' := by
  rw [kruskalLoop]
  simp only [List.dropLast_concat]
  split
  · next hw =>
    rw [List.getLast?_concat] at hw
    cases hw
  · next pd hw =>
    rw [List.getLast?_concat] at hw
    injection hw with hw
    subst hw
    rfl

theorem mem_kruskalWalls {width height : Nat} {p : Position} {d : Direction} :
    (p, d) ∈ kruskalWalls width height ↔
      inBounds width height p ∧ inBounds width height (p.step d) := by
  unfold kruskalWalls
  rw [List.mem_flatMap]
  constructor
  · rintro ⟨q, hq, hmem⟩
    obtain ⟨nd, hnd, heq⟩ := List.mem_map.mp hmem
    injection heq with h1 h2
    subst h1
    subst h2
    obtain ⟨x, e⟩ := nd
    have := mem_getNeighbors.mp hnd
    exact ⟨mem_positionsList.mp hq, this.1 ▸ this.2⟩
  · rintro ⟨hp, hstep⟩
    refine ⟨p, mem_positionsList.mpr hp, List.mem_map.mpr
      ⟨(p.step d, d), mem_getNeighbors.mpr ⟨rfl, hstep⟩, rfl⟩⟩

/-- In-bounds cells as a finite set. -/
def gridPositions (width height : Nat) : Finset Position :=
  (positionsList width height).toFinset

theorem mem_gridPositions {width height : Nat} {p : Position} :
    p ∈ gridPositions width height ↔ inBounds width height p := by
  rw [gridPositions, List.mem_toFinset, mem_positionsList]

theorem positionsList_length (width height : Nat) :
    (positionsList width height).length = width * height := by
  unfold positionsList
  rw [List.length_flatMap]
  have h1 : ∀ f : Nat → List Position, (∀ a, (f a).length = height) →
      ((List.range width).map (List.length ∘ f)).sum = width * height := by
    intro f hf
    have hrep : (List.range width).map (List.length ∘ f) =
        List.replicate width height := by
      refine List.eq_replicate.mpr ⟨by simp, ?_⟩
      intro b hb
      obtain ⟨a, -, rfl⟩ := List.mem_map.mp hb
      exact hf a
    rw [hrep, List.sum_replicate, smul_eq_mul]
  exact h1 _ (fun a => by simp)

theorem gridPositions_card (width height : Nat) :
    (gridPositions width height).card = width * height := by
  rw [gridPositions, List.toFinset_card_of_nodup (nodup_positionsList _ _),
    positionsList_length]

theorem isOpen_init_false (w h : Nat) (t : CellType) (p : Position)
    (d : Direction) : (CellGrid.init w h t).isOpen p d = false := rfl

theorem reachOpen_init_eq {w h : Nat} {t : CellType} {p q : Position}
    (hr : ReachOpen (CellGrid.init w h t) p q) : p = q := by
  induction hr with
  | refl => rfl
  | tail _ hstep ih =>
    obtain ⟨d, _, _, rfl, hopen⟩ := hstep
    rw [isOpen_init_false] at hopen
    cases hopen

/-- Loop invariant of the Kruskal carving: the grid is symmetric with
only interior walls open, `set_cells` lists exactly the classes of
`cell_set`, two cells share a `cell_set` index exactly when they are
connected through open walls, and every union so far traded one wall
opening for one class merge. -/
structure KInv (width height : Nat) (st : KruskalState) : Prop where
  sym : WallSym st.grid
  closed : ClosedOutward st.grid
  wEq : st.grid.width = width
  hEq : st.grid.height = height
  csLt : ∀ p, inBounds width height p → st.cellSet p < width * height
  scLen : st.setCells.length = width * height
  scEq : ∀ i, i < width * height → st.setCells.getD i ∅ =
    (gridPositions width height).filter (fun p => st.cellSet p = i)
  reach : ∀ p q, inBounds width height p → inBounds width height q →
    (st.cellSet p = st.cellSet q ↔ ReachOpen st.grid p q)
  count : st.grid.openWallCount
    + ((gridPositions width height).image st.cellSet).card = width * height

theorem indexOf_injOn_positions (width height : Nat) :
    ∀ p, inBounds width height p → ∀ q, inBounds width height q →
      (positionsList width height).indexOf p =
        (positionsList width height).indexOf q → p = q := by
  intro p hp q hq hidx
  have hp' : p ∈ positionsList width height := mem_positionsList.mpr hp
  have hq' : q ∈ positionsList width height := mem_positionsList.mpr hq
  have h1 := List.getElem_indexOf (List.indexOf_lt_length.mpr hp')
  have h2 := List.getElem_indexOf (List.indexOf_lt_length.mpr hq')
  rw [← h1, ← h2]
  congr 1

theorem kruskalInit_inv (width height : Nat) :
    KInv width height (kruskalInit width height) := by
  constructor
  · exact wallSym_init width height .EMPTY
  · exact closedOutward_init width height .EMPTY
  · rfl
  · rfl
  · intro p hp
    rw [show (kruskalInit width height).cellSet p =
      (positionsList width height).indexOf p from rfl,
      ← positionsList_length width height]
    exact List.indexOf_lt_length.mpr (mem_positionsList.mpr hp)
  · rw [show (kruskalInit width height).setCells =
      (positionsList width height).map (fun p => ({p} : Finset Position))
      from rfl, List.length_map, positionsList_length]
  · intro i hi
    have hi' : i < (positionsList width height).length := by
      rw [positionsList_length]; exact hi
    have hgd : ((positionsList width height).map
        (fun p => ({p} : Finset Position))).getD i ∅ =
        {(positionsList width height)[i]} := by
      rw [List.getD_eq_getElem?_getD, List.getElem?_map,
        List.getElem?_eq_getElem hi']
      rfl
    rw [show (kruskalInit width height).setCells =
      (positionsList width height).map (fun p => ({p} : Finset Position))
      from rfl, hgd]
    ext x
    simp only [Finset.mem_singleton, Finset.mem_filter, mem_gridPositions]
    constructor
    · rintro rfl
      refine ⟨mem_positionsList.mp (List.getElem_mem hi'), ?_⟩
      exact List.indexOf_getElem (nodup_positionsList width height) i hi'
    · rintro ⟨hx, hidx⟩
      have := List.getElem_indexOf
        (List.indexOf_lt_length.mpr (mem_positionsList.mpr hx))
      rw [← this]
      congr 1
  · intro p q hp hq
    constructor
    · intro hidx
      have := indexOf_injOn_positions width height p hp q hq hidx
      rw [this]
      exact Relation.ReflTransGen.refl
    · intro hr
      rw [reachOpen_init_eq hr]
  · have hcount0 : (kruskalInit width height).grid.openWallCount = 0 := by
      unfold CellGrid.openWallCount
      rw [List.countP_eq_zero]
      intro a _
      rw [show (kruskalInit width height).grid = CellGrid.init width height
        .EMPTY from rfl, isOpen_init_false]
      simp
    rw [hcount0, Nat.zero_add]
    rw [Finset.card_image_of_injOn, gridPositions_card]
    intro p hp q hq
    exact indexOf_injOn_positions width height p (mem_gridPositions.mp hp) q
      (mem_gridPositions.mp hq)

/-- Open-wall adjacency after `open_wall P d`: the old edges plus the
new one in both orientations. -/
theorem adjOpen_openWallUpd_iff {g : CellGrid} {P : Position} {d : Direction}
    (hP : g.inB P) (hN : g.inB (P.step d)) (x y : Position) :
    AdjOpen (g.openWallUpd P d) x y ↔
      AdjOpen g x y ∨ (x = P ∧ y = P.step d) ∨ (x = P.step d ∧ y = P) := by
  constructor
  · rintro ⟨e, hx, hy, rfl, hopen⟩
    rw [CellGrid.isOpen_openWallUpd] at hopen
    by_cases hc : (x = P ∧ e = d) ∨ (x = P.step d ∧ e = d.reverse)
    · rcases hc with ⟨rfl, rfl⟩ | ⟨rfl, rfl⟩
      · exact Or.inr (Or.inl ⟨rfl, rfl⟩)
      · exact Or.inr (Or.inr ⟨rfl, Position.step_step_reverse P d⟩)
    · rw [if_neg hc] at hopen
      exact Or.inl ⟨e, hx, hy, rfl, hopen⟩
  · rintro (⟨e, hx, hy, rfl, hopen⟩ | ⟨hx', hy'⟩ | ⟨hx', hy'⟩)
    · exact ⟨e, hx, hy, rfl, g.isOpen_mono_openWallUpd P d hopen⟩
    · rw [hx', hy']
      exact ⟨d, hP, hN, rfl, g.isOpen_openWallUpd_self P d⟩
    · rw [hx', hy']
      exact ⟨d.reverse, hN, hP, (Position.step_step_reverse P d).symm,
        g.isOpen_openWallUpd_nbr P d⟩

/-- One Kruskal union step: it succeeds, preserves the invariant, makes
the two endpoints share a class, and never separates cells that already
share one. -/
theorem kruskalStep_spec {width height : Nat} {st : KruskalState}
    (inv : KInv width height st) {position : Position} {direction : Direction}
    (hP : inBounds width height position)
    (hN : inBounds width height (position.step direction)) :
    ∃ st', kruskalStep st position direction = .ok st'
      ∧ KInv width height st'
      ∧ st'.cellSet position = st'.cellSet (position.step direction)
      ∧ (∀ a b, inBounds width height a → inBounds width height b →
          st.cellSet a = st.cellSet b → st'.cellSet a = st'.cellSet b) := by
  by_cases heq : st.cellSet position = st.cellSet (position.step direction)
  · refine ⟨st, ?_, inv, heq, fun a b _ _ h => h⟩
    simp only [kruskalStep]
    rw [if_neg (not_not_intro heq)]
  · have hgP : st.grid.inB position := by
      unfold CellGrid.inB
      rw [inv.wEq, inv.hEq]
      exact hP
    have hgN : st.grid.inB (position.step direction) := by
      unfold CellGrid.inB
      rw [inv.wEq, inv.hEq]
      exact hN
    have hok : st.grid.openWall position direction =
        .ok (st.grid.openWallUpd position direction) :=
      (st.grid.openWall_eq_ok_iff position direction _).mpr ⟨⟨hgP, hgN⟩, rfl⟩
    have hilt : st.cellSet position < width * height := inv.csLt position hP
    have hjlt : st.cellSet (position.step direction) < width * height :=
      inv.csLt _ hN
    set i := st.cellSet position with hidef
    set j := st.cellSet (position.step direction) with hjdef
    set nS := st.setCells.getD i ∅ ∪ st.setCells.getD j ∅ with hnSdef
    have hmemNS : ∀ x, x ∈ nS ↔
        inBounds width height x ∧ (st.cellSet x = i ∨ st.cellSet x = j) := by
      intro x
      rw [hnSdef, inv.scEq i hilt, inv.scEq j hjlt]
      simp only [Finset.mem_union, Finset.mem_filter, mem_gridPositions]
      tauto
    have hPmem : position ∈ nS := (hmemNS position).mpr ⟨hP, Or.inl rfl⟩
    have hNmem : position.step direction ∈ nS :=
      (hmemNS _).mpr ⟨hN, Or.inr rfl⟩
    have hclosed : st.grid.isOpen position direction = false := by
      cases hop : st.grid.isOpen position direction
      · rfl
      · exact absurd ((inv.reach position _ hP hN).mpr
          (Relation.ReflTransGen.single ⟨direction, hgP, hgN, rfl, hop⟩)) heq
    have hmin : min i j = i ∨ min i j = j := min_choice i j
    -- the updated components
    set cs' : Position → Nat :=
      fun pos => if pos ∈ nS then min i j else st.cellSet pos with hcsDef
    have hcsP : cs' position = min i j := by rw [hcsDef]; simp [hPmem]
    have hcsN : cs' (position.step direction) = min i j := by
      rw [hcsDef]; simp [hNmem]
    have hcong : ∀ a b, inBounds width height a → inBounds width height b →
        st.cellSet a = st.cellSet b → cs' a = cs' b := by
      intro a b ha hb hab
      rw [hcsDef]
      by_cases haS : a ∈ nS
      · have hbS : b ∈ nS := (hmemNS b).mpr
          ⟨hb, hab ▸ ((hmemNS a).mp haS).2⟩
        simp [haS, hbS]
      · have hbS : b ∉ nS := fun hbS => haS ((hmemNS a).mpr
          ⟨ha, hab ▸ ((hmemNS b).mp hbS).2⟩)
        simp [haS, hbS, hab]
    have htrans : ∀ z, st.grid.inB z → inBounds width height z := by
      intro z hz
      unfold CellGrid.inB at hz
      rw [inv.wEq, inv.hEq] at hz
      exact hz
    set upd := st.grid.openWallUpd position direction with hupddef
    have hsym' : WallSym upd := inv.sym.openWallUpd_sym position direction
    have hreach_nS : ∀ x, x ∈ nS → ReachOpen upd x position := by
      intro x hx
      obtain ⟨hxb, hcs⟩ := (hmemNS x).mp hx
      have hxg : ∀ z, inBounds width height z → st.grid.inB z := by
        intro z hz
        unfold CellGrid.inB
        rw [inv.wEq, inv.hEq]
        exact hz
      rcases hcs with hcs | hcs
      · exact ReachOpen.mono_openWallUpd position direction
          ((inv.reach x position hxb hP).mp hcs)
      · have h1 : ReachOpen upd x (position.step direction) :=
          ReachOpen.mono_openWallUpd position direction
            ((inv.reach x _ hxb hN).mp hcs)
        refine h1.trans (Relation.ReflTransGen.single ?_)
        exact ⟨direction.reverse, hgN, hgP,
          (Position.step_step_reverse position direction).symm,
          st.grid.isOpen_openWallUpd_nbr position direction⟩
    refine ⟨{ grid := upd
              cellSet := cs'
              setCells := (st.setCells.set i
                  (if i = min i j then nS else ∅)).set j
                (if i = min i j then ∅ else nS) }, ?_, ?_, ?_, ?_⟩
    · simp only [kruskalStep]
      rw [if_pos heq, hok]
    · constructor
      · exact hsym'
      · exact inv.closed.openWallUpd_closed hgP hgN
      · rw [hupddef, CellGrid.width_openWallUpd]
        exact inv.wEq
      · rw [hupddef, CellGrid.height_openWallUpd]
        exact inv.hEq
      · intro p hp
        rw [hcsDef]
        by_cases hpS : p ∈ nS
        · simp only [hpS, if_true]
          rcases hmin with hm | hm <;> rw [hm] <;> omega
        · simp only [hpS, if_false]
          exact inv.csLt p hp
      · rw [List.length_set, List.length_set]
        exact inv.scLen
      · -- scEq
        intro k hk
        have hiLen : i < st.setCells.length := by rw [inv.scLen]; exact hilt
        have hjLen : j < st.setCells.length := by rw [inv.scLen]; exact hjlt
        by_cases hki : k = i
        · rw [hki]
          have hji : j ≠ i := fun h => heq h.symm
          rw [getD_set_ne _ _ _ _ _ hji, getD_set_self _ _ _ _ hiLen]
          by_cases hisP : i = min i j
          · rw [if_pos hisP]
            ext x
            simp only [Finset.mem_filter, mem_gridPositions]
            constructor
            · intro hx
              refine ⟨((hmemNS x).mp hx).1, ?_⟩
              rw [hcsDef]
              simp only [hx, if_true]
              exact hisP.symm
            · rintro ⟨hxb, hcs⟩
              rw [hcsDef] at hcs
              by_cases hxS : x ∈ nS
              · exact hxS
              · simp only [hxS, if_false] at hcs
                exact absurd ((hmemNS x).mpr ⟨hxb, Or.inl hcs⟩) hxS
          · rw [if_neg hisP]
            have hmj : min i j = j := by
              rcases hmin with hm | hm
              · exact absurd hm.symm hisP
              · exact hm
            ext x
            simp only [Finset.mem_filter, mem_gridPositions,
              Finset.not_mem_empty, false_iff]
            rintro ⟨hxb, hcs⟩
            rw [hcsDef] at hcs
            by_cases hxS : x ∈ nS
            · simp only [hxS, if_true] at hcs
              rw [hmj] at hcs
              exact hji hcs
            · simp only [hxS, if_false] at hcs
              exact hxS ((hmemNS x).mpr ⟨hxb, Or.inl hcs⟩)
        · by_cases hkj : k = j
          · rw [hkj]
            have hlen2 : j < (st.setCells.set i
                (if i = min i j then nS else ∅)).length := by
              rw [List.length_set]
              exact hjLen
            rw [getD_set_self _ _ _ _ hlen2]
            by_cases hisP : i = min i j
            · rw [if_pos hisP]
              ext x
              simp only [Finset.mem_filter, mem_gridPositions,
                Finset.not_mem_empty, false_iff]
              rintro ⟨hxb, hcs⟩
              rw [hcsDef] at hcs
              by_cases hxS : x ∈ nS
              · simp only [hxS, if_true] at hcs
                rw [← hisP] at hcs
                exact heq hcs
              · simp only [hxS, if_false] at hcs
                exact hxS ((hmemNS x).mpr ⟨hxb, Or.inr hcs⟩)
            · rw [if_neg hisP]
              have hmj : min i j = j := by
                rcases hmin with hm | hm
                · exact absurd hm.symm hisP
                · exact hm
              ext x
              simp only [Finset.mem_filter, mem_gridPositions]
              constructor
              · intro hx
                refine ⟨((hmemNS x).mp hx).1, ?_⟩
                rw [hcsDef]
                simp only [hx, if_true]
                exact hmj
              · rintro ⟨hxb, hcs⟩
                rw [hcsDef] at hcs
                by_cases hxS : x ∈ nS
                · exact hxS
                · simp only [hxS, if_false] at hcs
                  exact absurd ((hmemNS x).mpr ⟨hxb, Or.inr hcs⟩) hxS
          · rw [getD_set_ne _ _ _ _ _ (fun h => hkj h.symm),
              getD_set_ne _ _ _ _ _ (fun h => hki h.symm),
              inv.scEq k hk]
            ext x
            simp only [Finset.mem_filter, mem_gridPositions]
            constructor
            · rintro ⟨hxb, hcs⟩
              refine ⟨hxb, ?_⟩
              rw [hcsDef]
              have hxS : x ∉ nS := by
                intro hxS
                rcases ((hmemNS x).mp hxS).2 with h | h
                · exact hki (hcs.symm.trans h)
                · exact hkj (hcs.symm.trans h)
              simp [hxS, hcs]
            · rintro ⟨hxb, hcs⟩
              rw [hcsDef] at hcs
              by_cases hxS : x ∈ nS
              · simp only [hxS, if_true] at hcs
                exfalso
                rcases hmin with hm | hm
                · exact hki (hcs.symm.trans hm)
                · exact hkj (hcs.symm.trans hm)
              · simp only [hxS, if_false] at hcs
                exact ⟨hxb, hcs⟩
      · -- reach
        intro a b ha hb
        show cs' a = cs' b ↔ ReachOpen upd a b
        constructor
        · intro hab
          by_cases haS : a ∈ nS
          · by_cases hbS : b ∈ nS
            · exact (hreach_nS a haS).trans ((hreach_nS b hbS).symm_reach hsym')
            · exfalso
              rw [hcsDef] at hab
              simp only [haS, hbS, if_true, if_false] at hab
              exact hbS ((hmemNS b).mpr ⟨hb, by
                rcases hmin with hm | hm
                · exact Or.inl (by rw [← hab, hm])
                · exact Or.inr (by rw [← hab, hm])⟩)
          · by_cases hbS : b ∈ nS
            · exfalso
              rw [hcsDef] at hab
              simp only [haS, hbS, if_true, if_false] at hab
              exact haS ((hmemNS a).mpr ⟨ha, by
                rcases hmin with hm | hm
                · exact Or.inl (by rw [hab, hm])
                · exact Or.inr (by rw [hab, hm])⟩)
            · rw [hcsDef] at hab
              simp only [haS, hbS, if_false] at hab
              exact ReachOpen.mono_openWallUpd position direction
                ((inv.reach a b ha hb).mp hab)
        · intro hr
          induction hr with
          | refl => rfl
          | tail hpath hstep ih =>
            obtain ⟨e, hx, hy, hxy, hopen⟩ := hstep
            have hxb := htrans _ hx
            refine (ih hxb).trans ?_
            rcases (adjOpen_openWallUpd_iff hgP hgN _ _).mp
              ⟨e, hx, hy, hxy, hopen⟩ with hadj | ⟨hx', hy'⟩ | ⟨hx', hy'⟩
            · obtain ⟨e2, hx2, hy2, hxy2, hopen2⟩ := hadj
              have hxb2 := htrans _ hx2
              have hyb2 := htrans _ hy2
              refine hcong _ _ hxb2 hyb2 ?_
              exact (inv.reach _ _ hxb2 hyb2).mpr
                (Relation.ReflTransGen.single ⟨e2, hx2, hy2, hxy2, hopen2⟩)
            · rw [hx', hy', hcsP, hcsN]
            · rw [hx', hy', hcsN, hcsP]
      · -- count
        show upd.openWallCount
          + ((gridPositions width height).image cs').card = width * height
        have hwcount : upd.openWallCount = st.grid.openWallCount + 1 :=
          CellGrid.openWallCount_openWallUpd inv.sym hgP hgN hclosed
        have hij : i ≠ j := heq
        have hiImg : i ∈ (gridPositions width height).image st.cellSet :=
          Finset.mem_image.mpr ⟨position, mem_gridPositions.mpr hP, rfl⟩
        have hjImg : j ∈ (gridPositions width height).image st.cellSet :=
          Finset.mem_image.mpr ⟨_, mem_gridPositions.mpr hN, rfl⟩
        have hsub : ({i, j} : Finset Nat) ⊆
            (gridPositions width height).image st.cellSet := by
          intro k hk
          rcases Finset.mem_insert.mp hk with rfl | hk
          · exact hiImg
          · rw [Finset.mem_singleton.mp hk]
            exact hjImg
        have himg : (gridPositions width height).image cs' =
            insert (min i j)
              (((gridPositions width height).image st.cellSet) \ {i, j}) := by
          apply Finset.Subset.antisymm
          · intro k hk
            obtain ⟨x, hx, rfl⟩ := Finset.mem_image.mp hk
            by_cases hxS : x ∈ nS
            · have hxm : cs' x = min i j := by rw [hcsDef]; simp [hxS]
              rw [hxm]
              exact Finset.mem_insert_self _ _
            · have hcx : cs' x = st.cellSet x := by rw [hcsDef]; simp [hxS]
              rw [hcx]
              refine Finset.mem_insert_of_mem (Finset.mem_sdiff.mpr
                ⟨Finset.mem_image.mpr ⟨x, hx, rfl⟩, ?_⟩)
              intro hmem
              rcases Finset.mem_insert.mp hmem with h | h
              · exact hxS ((hmemNS x).mpr
                  ⟨mem_gridPositions.mp hx, Or.inl h⟩)
              · exact hxS ((hmemNS x).mpr
                  ⟨mem_gridPositions.mp hx,
                    Or.inr (Finset.mem_singleton.mp h)⟩)
          · intro k hk
            rcases Finset.mem_insert.mp hk with rfl | hk
            · exact Finset.mem_image.mpr
                ⟨position, mem_gridPositions.mpr hP, hcsP⟩
            · obtain ⟨hk1, hk2⟩ := Finset.mem_sdiff.mp hk
              obtain ⟨x, hx, rfl⟩ := Finset.mem_image.mp hk1
              have hxS : x ∉ nS := by
                intro hxS
                rcases ((hmemNS x).mp hxS).2 with h | h
                · exact hk2 (by rw [h]; exact Finset.mem_insert_self i _)
                · exact hk2 (by
                    rw [h]
                    exact Finset.mem_insert_of_mem
                      (Finset.mem_singleton_self j))
              exact Finset.mem_image.mpr
                ⟨x, hx, by rw [hcsDef]; simp [hxS]⟩
        have hnotmem : min i j ∉
            ((gridPositions width height).image st.cellSet) \ {i, j} := by
          intro hmem
          have := (Finset.mem_sdiff.mp hmem).2
          rcases hmin with hm | hm <;> rw [hm] at this
          · exact this (Finset.mem_insert_self i _)
          · exact this (Finset.mem_insert_of_mem (Finset.mem_singleton_self j))
        have hcard2 : ({i, j} : Finset Nat).card = 2 := Finset.card_pair hij
        have hge : 2 ≤ ((gridPositions width height).image st.cellSet).card := by
          rw [← hcard2]
          exact Finset.card_le_card hsub
        have hsd := Finset.card_sdiff hsub
        rw [himg, Finset.card_insert_of_not_mem hnotmem, hsd, hcard2, hwcount]
        have := inv.count
        omega
    · show cs' position = cs' (position.step direction)
      rw [hcsP, hcsN]
    · exact hcong

/-- The Kruskal loop processes every wall, keeps the invariant, and
leaves every processed wall's endpoints in one class. -/
theorem kruskalLoop_spec {width height : Nat} :
    ∀ (walls : List (Position × Direction)) (st : KruskalState),
      KInv width height st →
      (∀ e ∈ walls, e ∈ kruskalWalls width height) →
      ∃ st', kruskalLoop walls st = .ok st'
        ∧ KInv width height st'
        ∧ (∀ e ∈ walls, st'.cellSet e.1 = st'.cellSet (e.1.step e.2))
        ∧ (∀ a b, inBounds width height a → inBounds width height b →
            st.cellSet a = st.cellSet b →
            st'.cellSet a = st'.cellSet b) := by
  intro walls
  induction walls using List.reverseRecOn with
  | nil =>
    intro st inv _
    exact ⟨st, kruskalLoop_nil st, inv, by simp, fun a b _ _ h => h⟩
  | append_singleton l e ihl =>
    intro st inv hmem
    obtain ⟨p, d⟩ := e
    have hpd := hmem (p, d)
      (List.mem_append_right _ (List.mem_singleton_self _))
    obtain ⟨hP, hN⟩ := mem_kruskalWalls.mp hpd
    obtain ⟨st1, hstep, inv1, hsame1, hmono1⟩ := kruskalStep_spec inv hP hN
    obtain ⟨st', hloop, inv', hsame', hmono'⟩ :=
      ihl st1 inv1 (fun x hx => hmem x (List.mem_append_left _ hx))
    refine ⟨st', ?_, inv', ?_,
      fun a b ha hb hab => hmono' a b ha hb (hmono1 a b ha hb hab)⟩
    · rw [kruskalLoop_concat, hstep]
      exact hloop
    · intro x hx
      rcases List.mem_append.mp hx with hx | hx
      · exact hsame' x hx
      · rw [List.mem_singleton.mp hx]
        exact hmono' p (p.step d) hP hN hsame1

/-- Kruskal produces a spanning tree: for any permutation of the wall
list (any shuffle result) the loop succeeds, the carved grid is
connected and has exactly `width·height − 1` open walls. -/
theorem kruskalCarve_spanning {width height : Nat} (hw : 0 < width)
    (hh : 0 < height) (shuffled : List (Position × Direction))
    (hperm : shuffled.Perm (kruskalWalls width height)) :
    ∃ st', kruskalCarve width height shuffled = .ok st'
      ∧ st'.grid.width = width ∧ st'.grid.height = height
      ∧ st'.grid.Connected
      ∧ st'.grid.openWallCount = width * height - 1 := by
  obtain ⟨st', hloop, inv', hsame', -⟩ :=
    kruskalLoop_spec shuffled (kruskalInit width height)
      (kruskalInit_inv width height) (fun e he => hperm.subset he)
  have hadjsame : ∀ p d, inBounds width height p →
      inBounds width height (p.step d) →
      st'.cellSet p = st'.cellSet (p.step d) := by
    intro p d hp hn
    exact hsame' (p, d) (hperm.mem_iff.mpr (mem_kruskalWalls.mpr ⟨hp, hn⟩))
  have hallsame : ∀ p q, inBounds width height p →
      inBounds width height q → st'.cellSet p = st'.cellSet q := by
    intro p q hp hq
    have hpath := adjFull_connected hp hq
    induction hpath with
    | refl => rfl
    | tail hpath hstepF ih =>
      obtain ⟨hx, hy, d, rfl⟩ := hstepF
      exact (ih hx).trans (hadjsame _ d hx hy)
  refine ⟨st', hloop, inv'.wEq, inv'.hEq, ?_, ?_⟩
  · intro p q hpB hqB
    have hp : inBounds width height p := by
      unfold CellGrid.inB at hpB
      rw [inv'.wEq, inv'.hEq] at hpB
      exact hpB
    have hq : inBounds width height q := by
      unfold CellGrid.inB at hqB
      rw [inv'.wEq, inv'.hEq] at hqB
      exact hqB
    exact (inv'.reach p q hp hq).mp (hallsame p q hp hq)
  · have h00 : inBounds width height { x_coord := 0, y_coord := 0 } := by
      unfold inBounds
      dsimp only
      omega
    have himg1 : ((gridPositions width height).image st'.cellSet).card = 1 := by
      rw [Finset.card_eq_one]
      refine ⟨st'.cellSet { x_coord := 0, y_coord := 0 }, ?_⟩
      ext k
      simp only [Finset.mem_image, Finset.mem_singleton, mem_gridPositions]
      constructor
      · rintro ⟨x, hx, rfl⟩
        exact hallsame x _ hx h00
      · rintro rfl
        exact ⟨_, h00, rfl⟩
    have hc := inv'.count
    rw [himg1] at hc
    omega

/-! ## Randomized Prim carving (`prim.py`)

`self.rand.shuffle(pending)` after every expansion is modelled by a
shuffle oracle `sh` indexed by a call counter; every theorem quantifies
over all oracles whose output is a permutation of their input, which
covers the shuffle of every seed. -/

/-- The `while pending` loop of `PrimLayoutGenerator._generate_plain_layout`:
pop `(cur_pos, direction)` from the end; if unvisited, open the wall
back towards its source, extend the frontier with its unvisited
neighbors, reshuffle the whole frontier and mark it visited.  Fuel makes
the recursion structural; `none` means out of fuel or a failed
`open_wall`. -/
def primLoop (sh : Nat → List (Position × Direction) → List (Position × Direction)) :
    Nat → CellGrid → List (Position × Direction) → Finset Position → Nat →
      Option (CellGrid × Finset Position)
  | 0, _, _, _, _ => none
  | fuel + 1, g, pending, visited, k =>
    match pending.getLast? with
    | none => some (g, visited)
    | some (cur_pos, direction) =>
      if cur_pos ∈ visited then
        primLoop sh fuel g pending.dropLast visited k
      else
        match g.openWall cur_pos direction.reverse with
        | .error _ => none
        | .ok g' =>
          primLoop sh fuel g'
            (sh k (pending.dropLast ++
              (g'.getNeighbors cur_pos).filter (fun nd => nd.1 ∉ visited)))
            (insert cur_pos visited) (k + 1)

/-- The wall-carving part of `PrimLayoutGenerator._generate_plain_layout`,
started at `start` (`self.random_position(no_border=False)` always
returns its first, in-bounds sample) with enough fuel for the loop to
drain. -/
def primCarve (width height : Nat)
    (sh : Nat → List (Position × Direction) → List (Position × Direction))
    (start : Position) : Option (CellGrid × Finset Position) :=
  let grid := CellGrid.init width height .EMPTY
  primLoop sh (5 * width * height + 5) grid (grid.getNeighbors start)
    {start} 0

theorem primLoop_nil (sh : Nat → List (Position × Direction) →
    List (Position × Direction)) (fuel : Nat) (g : CellGrid)
    (visited : Finset Position) (k : Nat) :
    primLoop sh (fuel + 1) g [] visited k = some (g, visited) := by
  rw [primLoop]
  rfl

theorem primLoop_concat (sh : Nat → List (Position × Direction) →
    List (Position × Direction)) (fuel : Nat) (g : CellGrid)
    (l : List (Position × Direction)) (e : Position × Direction)
    (visited : Finset Position) (k : Nat) :
    primLoop sh (fuel + 1) g (l ++ [e]) visited k =
      if e.1 ∈ visited then primLoop sh fuel g l visited k
      else
        match g.openWall e.1 e.2.reverse with
        | .error _ => none
        | .ok g' =>
          primLoop sh fuel g'
            (sh k (l ++ (g'.getNeighbors e.1).filter
              (fun nd => nd.1 ∉ visited)))
            (insert e.1 visited) (k + 1) := by
  rw [primLoop]
  rw [List.getLast?_concat, List.dropLast_concat]

theorem getNeighbors_length_le (g : CellGrid) (p : Position) :
    (g.getNeighbors p).length ≤ 4 := by
  unfold CellGrid.getNeighbors
  refine (List.length_filter_le _ _).trans ?_
  rw [List.length_map]
  rfl

/-- Loop invariant of the Prim carving. -/
structure PInv (width height : Nat) (g : CellGrid)
    (pending : List (Position × Direction))
    (visited : Finset Position) : Prop where
  sym : WallSym g
  wEq : g.width = width
  hEq : g.height = height
  visB : ∀ v ∈ visited, inBounds width height v
  visNE : visited.Nonempty
  pend : ∀ x ∈ pending, inBounds width height x.1
    ∧ x.1.step x.2.reverse ∈ visited
  openIn : ∀ p d, g.isOpen p d = true → p ∈ visited ∧ p.step d ∈ visited
  conn : ∀ p q, p ∈ visited → q ∈ visited → ReachOpen g p q
  count : g.openWallCount + 1 = visited.card
  closure : ∀ v ∈ visited, ∀ d, inBounds width height (v.step d) →
    v.step d ∈ visited ∨ ∃ e, (v.step d, e) ∈ pending

/-- The invariant holds at the start of the Prim loop. -/
theorem primInit_inv {width height : Nat} {start : Position}
    (hstart : inBounds width height start) :
    PInv width height (CellGrid.init width height .EMPTY)
      ((CellGrid.init width height .EMPTY).getNeighbors start) {start} := by
  constructor
  · exact wallSym_init width height .EMPTY
  · rfl
  · rfl
  · intro v hv
    rw [Finset.mem_singleton.mp hv]
    exact hstart
  · exact ⟨start, Finset.mem_singleton_self start⟩
  · rintro ⟨q, d⟩ hx
    obtain ⟨rfl, hq⟩ := mem_getNeighbors.mp hx
    exact ⟨hq, by
      rw [Position.step_step_reverse]
      exact Finset.mem_singleton_self start⟩
  · intro p d hopen
    rw [isOpen_init_false] at hopen
    cases hopen
  · intro p q hp hq
    rw [Finset.mem_singleton.mp hp, Finset.mem_singleton.mp hq]
    exact Relation.ReflTransGen.refl
  · have h0 : (CellGrid.init width height .EMPTY).openWallCount = 0 := by
      unfold CellGrid.openWallCount
      rw [List.countP_eq_zero]
      intro a _
      rw [isOpen_init_false]
      simp
    rw [h0, Finset.card_singleton]
  · intro v hv d hstep
    rw [Finset.mem_singleton.mp hv] at hstep ⊢
    refine Or.inr ⟨d, ?_⟩
    exact mem_getNeighbors.mpr ⟨rfl, hstep⟩

/-- The Prim loop drains the frontier and maintains the invariant,
given enough fuel. -/
theorem primLoop_spec {width height : Nat}
    (sh : Nat → List (Position × Direction) → List (Position × Direction))
    (hsh : ∀ k l, List.Perm (sh k l) l) :
    ∀ (fuel : Nat) (g : CellGrid) (pending : List (Position × Direction))
      (visited : Finset Position) (k : Nat),
      PInv width height g pending visited →
      pending.length + 5 * (width * height - visited.card) < fuel →
      ∃ g' visited',
        primLoop sh fuel g pending visited k = some (g', visited')
        ∧ PInv width height g' [] visited' := by
  intro fuel
  induction fuel with
  | zero =>
    intro g pending visited k _ hfuel
    omega
  | succ fuel ih =>
    intro g pending visited k inv hfuel
    rcases List.eq_nil_or_concat pending with rfl | ⟨l, e, he⟩
    · exact ⟨g, visited, primLoop_nil sh fuel g visited k, inv⟩
    · rw [List.concat_eq_append] at he
      subst he
      obtain ⟨cur, d⟩ := e
      obtain ⟨hcurB, hsrcVis⟩ := inv.pend (cur, d)
        (List.mem_append_right _ (List.mem_singleton_self _))
      rw [List.length_append, List.length_singleton] at hfuel
      by_cases hvis : cur ∈ visited
      · rw [primLoop_concat, if_pos hvis]
        refine ih g l visited k ?_ (by omega)
        refine ⟨inv.sym, inv.wEq, inv.hEq, inv.visB, inv.visNE,
          fun x hxl => inv.pend x (List.mem_append_left _ hxl),
          inv.openIn, inv.conn, inv.count, ?_⟩
        intro v hv e hstep
        rcases inv.closure v hv e hstep with h | ⟨e', he'⟩
        · exact Or.inl h
        · rcases List.mem_append.mp he' with h | h
          · exact Or.inr ⟨e', h⟩
          · have hq : v.step e = cur :=
              congrArg Prod.fst (List.mem_singleton.mp h)
            exact Or.inl (by rw [hq]; exact hvis)
      · rw [primLoop_concat, if_neg hvis]
        have hsrcB : inBounds width height (cur.step d.reverse) :=
          inv.visB _ hsrcVis
        have hgcur : g.inB cur := by
          unfold CellGrid.inB
          rw [inv.wEq, inv.hEq]
          exact hcurB
        have hgsrc : g.inB (cur.step d.reverse) := by
          unfold CellGrid.inB
          rw [inv.wEq, inv.hEq]
          exact hsrcB
        have hok : g.openWall cur d.reverse =
            .ok (g.openWallUpd cur d.reverse) :=
          (g.openWall_eq_ok_iff cur d.reverse _).mpr ⟨⟨hgcur, hgsrc⟩, rfl⟩
        rw [hok]
        set g' := g.openWallUpd cur d.reverse with hgDef
        set ext := (g'.getNeighbors cur).filter (fun nd => nd.1 ∉ visited)
          with hextdef
        have hwEq' : g'.width = width := by
          rw [hgDef, CellGrid.width_openWallUpd]
          exact inv.wEq
        have hhEq' : g'.height = height := by
          rw [hgDef, CellGrid.height_openWallUpd]
          exact inv.hEq
        have htrans' : ∀ z, inBounds width height z → g'.inB z := by
          intro z hz
          unfold CellGrid.inB
          rw [hwEq', hhEq']
          exact hz
        have hsym' : WallSym g' := inv.sym.openWallUpd_sym cur d.reverse
        have hclosedwall : g.isOpen cur d.reverse = false := by
          cases hop : g.isOpen cur d.reverse
          · rfl
          · exact absurd (inv.openIn _ _ hop).1 hvis
        have hcount' : g'.openWallCount = g.openWallCount + 1 :=
          CellGrid.openWallCount_openWallUpd inv.sym hgcur hgsrc hclosedwall
        have hAdj_new : AdjOpen g' cur (cur.step d.reverse) :=
          ⟨d.reverse, hgcur, hgsrc, rfl,
            g.isOpen_openWallUpd_self cur d.reverse⟩
        have hconn' : ∀ p q, p ∈ insert cur visited →
            q ∈ insert cur visited → ReachOpen g' p q := by
          have hcur_src : ReachOpen g' cur (cur.step d.reverse) :=
            Relation.ReflTransGen.single hAdj_new
          have hvisited : ∀ p q, p ∈ visited → q ∈ visited →
              ReachOpen g' p q := fun p q hp hq =>
            ReachOpen.mono_openWallUpd _ _ (inv.conn p q hp hq)
          intro p q hp hq
          rcases Finset.mem_insert.mp hp with hpc | hp
          · rcases Finset.mem_insert.mp hq with hqc | hq
            · rw [hpc, hqc]
              exact Relation.ReflTransGen.refl
            · rw [hpc]
              exact hcur_src.trans (hvisited _ _ hsrcVis hq)
          · rcases Finset.mem_insert.mp hq with hqc | hq
            · rw [hqc]
              exact (hvisited _ _ hp hsrcVis).trans (hcur_src.symm_reach hsym')
            · exact hvisited p q hp hq
        have hsubIns : insert cur visited ⊆ gridPositions width height := by
          intro z hz
          rcases Finset.mem_insert.mp hz with rfl | hz
          · exact mem_gridPositions.mpr hcurB
          · exact mem_gridPositions.mpr (inv.visB z hz)
        have hcardlt : visited.card < width * height := by
          have h1 : (insert cur visited).card ≤ width * height := by
            rw [← gridPositions_card width height]
            exact Finset.card_le_card hsubIns
          rw [Finset.card_insert_of_not_mem hvis] at h1
          omega
        have hpendlen : (sh k (l ++ ext)).length = l.length + ext.length := by
          rw [(hsh k _).length_eq, List.length_append]
        have hextlen : ext.length ≤ 4 := by
          rw [hextdef]
          exact (List.length_filter_le _ _).trans
            (getNeighbors_length_le g' cur)
        show ∃ g'' visited'',
          primLoop sh fuel g' (sh k (l ++ ext)) (insert cur visited) (k + 1)
            = some (g'', visited'')
          ∧ PInv width height g'' [] visited''
        refine ih g' (sh k (l ++ ext)) (insert cur visited) (k + 1) ?_ ?_
        · constructor
          · exact hsym'
          · exact hwEq'
          · exact hhEq'
          · intro v hv
            rcases Finset.mem_insert.mp hv with rfl | hv
            · exact hcurB
            · exact inv.visB v hv
          · exact ⟨cur, Finset.mem_insert_self cur visited⟩
          · intro x hxm
            have hxm' : x ∈ l ++ ext := (hsh k _).subset hxm
            rcases List.mem_append.mp hxm' with hxl | hxe
            · obtain ⟨hb, hs⟩ := inv.pend x (List.mem_append_left _ hxl)
              exact ⟨hb, Finset.mem_insert_of_mem hs⟩
            · obtain ⟨x1, x2⟩ := x
              rw [hextdef] at hxe
              obtain ⟨hgn, -⟩ := List.mem_filter.mp hxe
              obtain ⟨heq1, hb⟩ := mem_getNeighbors.mp hgn
              refine ⟨?_, ?_⟩
              · unfold CellGrid.inB at hb
                rw [hwEq', hhEq'] at hb
                exact hb
              · rw [heq1, Position.step_step_reverse]
                exact Finset.mem_insert_self cur visited
          · intro p e hopen
            rw [hgDef, CellGrid.isOpen_openWallUpd] at hopen
            by_cases hc : (p = cur ∧ e = d.reverse)
                ∨ (p = cur.step d.reverse ∧ e = d.reverse.reverse)
            · rcases hc with ⟨hpc, hec⟩ | ⟨hpc, hec⟩
              · rw [hpc, hec]
                exact ⟨Finset.mem_insert_self cur visited,
                  Finset.mem_insert_of_mem hsrcVis⟩
              · rw [hpc, hec]
                refine ⟨Finset.mem_insert_of_mem hsrcVis, ?_⟩
                rw [Position.step_step_reverse]
                exact Finset.mem_insert_self cur visited
            · rw [if_neg hc] at hopen
              obtain ⟨h1, h2⟩ := inv.openIn p e hopen
              exact ⟨Finset.mem_insert_of_mem h1, Finset.mem_insert_of_mem h2⟩
          · exact hconn'
          · rw [hcount', Finset.card_insert_of_not_mem hvis]
            have := inv.count
            omega
          · intro v hv e hstep
            rcases Finset.mem_insert.mp hv with rfl | hv
            · by_cases hq : v.step e ∈ visited
              · exact Or.inl (Finset.mem_insert_of_mem hq)
              · refine Or.inr ⟨e, ?_⟩
                have hmem : (v.step e, e) ∈ ext := by
                  rw [hextdef]
                  refine List.mem_filter.mpr
                    ⟨mem_getNeighbors.mpr ⟨rfl, htrans' _ hstep⟩, by simp [hq]⟩
                exact (hsh (k) _).mem_iff.mpr (List.mem_append_right _ hmem)
            · rcases inv.closure v hv e hstep with h | ⟨e', he'⟩
              · exact Or.inl (Finset.mem_insert_of_mem h)
              · rcases List.mem_append.mp he' with h | h
                · exact Or.inr ⟨e', (hsh k _).mem_iff.mpr
                    (List.mem_append_left _ h)⟩
                · have hq : v.step e = cur :=
                    congrArg Prod.fst (List.mem_singleton.mp h)
                  exact Or.inl (by rw [hq]
                                   exact Finset.mem_insert_self cur visited)
        · rw [hpendlen, Finset.card_insert_of_not_mem hvis]
          omega

/-- Prim produces a spanning tree for every shuffle oracle and every
in-bounds start cell. -/
theorem primCarve_spanning {width height : Nat} (hw : 0 < width)
    (hh : 0 < height)
    (sh : Nat → List (Position × Direction) → List (Position × Direction))
    (hsh : ∀ k l, List.Perm (sh k l) l) (start : Position)
    (hstart : inBounds width height start) :
    ∃ g' visited', primCarve width height sh start = some (g', visited')
      ∧ g'.width = width ∧ g'.height = height
      ∧ g'.Connected
      ∧ g'.openWallCount = width * height - 1 := by
  have hinit := @primInit_inv width height start hstart
  have hfuel : ((CellGrid.init width height .EMPTY).getNeighbors start).length
      + 5 * (width * height - ({start} : Finset Position).card)
      < 5 * width * height + 5 := by
    have h4 := getNeighbors_length_le (CellGrid.init width height .EMPTY) start
    rw [Finset.card_singleton, Nat.mul_assoc]
    have : 1 ≤ width * height := Nat.one_le_iff_ne_zero.mpr
      (Nat.mul_ne_zero (by omega) (by omega))
    omega
  obtain ⟨g', visited', heq, inv'⟩ := primLoop_spec sh hsh _
    (CellGrid.init width height .EMPTY)
    ((CellGrid.init width height .EMPTY).getNeighbors start)
    {start} 0 hinit hfuel
  obtain ⟨v0, hv0⟩ := inv'.visNE
  have hall : ∀ p, inBounds width height p → p ∈ visited' := by
    refine closure_all (V := visited') ?_ hv0 (inv'.visB _ hv0)
    intro v hv q hadj
    obtain ⟨-, hqB, e, rfl⟩ := hadj
    rcases inv'.closure v hv e hqB with h | ⟨e', he'⟩
    · exact h
    · cases he'
  have hvisEq : visited' = gridPositions width height := by
    apply Finset.Subset.antisymm
    · intro z hz
      exact mem_gridPositions.mpr (inv'.visB z hz)
    · intro z hz
      exact hall z (mem_gridPositions.mp hz)
  refine ⟨g', visited', heq, inv'.wEq, inv'.hEq, ?_, ?_⟩
  · intro p q hpB hqB
    have hp : inBounds width height p := by
      unfold CellGrid.inB at hpB
      rw [inv'.wEq, inv'.hEq] at hpB
      exact hpB
    have hq : inBounds width height q := by
      unfold CellGrid.inB at hqB
      rw [inv'.wEq, inv'.hEq] at hqB
      exact hqB
    exact inv'.conn p q (hall p hp) (hall q hq)
  · have hcard : visited'.card = width * height := by
      rw [hvisEq, gridPositions_card]
    have := inv'.count
    omega

/-! ## Randomized DFS carving (`randdfs.py`)

The fringe is the explicit stack of `(cell, remaining-neighbors)`
frames, its top at the end of the list as in the Python code;
`self.rand.shuffle(next_neighbors)` is again a shuffle oracle. -/

/-- The `while fringe` loop of
`RandomizedDfsLayoutGenerator.generate_layout`: peek the top frame, pop
one neighbor off its list (dropping the frame when the list empties),
and if the neighbor is unvisited open the wall towards it and push its
shuffled neighbor frame when nonempty. -/
def dfsLoop (sh : Nat → List (Position × Direction) → List (Position × Direction)) :
    Nat → CellGrid → List (Position × List (Position × Direction)) →
      Finset Position → Nat → Option (CellGrid × Finset Position)
  | 0, _, _, _, _ => none
  | fuel + 1, g, fringe, visited, k =>
    match fringe.getLast? with
    | none => some (g, visited)
    | some (position, neighbors) =>
      match neighbors.getLast? with
      | none => none
      | some (neighbor, direction) =>
        let fringe' := if neighbors.dropLast.isEmpty then fringe.dropLast
          else fringe.dropLast ++ [(position, neighbors.dropLast)]
        if neighbor ∈ visited then dfsLoop sh fuel g fringe' visited k
        else
          match g.openWall position direction with
          | .error _ => none
          | .ok g' =>
            if (g'.getNeighbors neighbor).isEmpty then
              dfsLoop sh fuel g' fringe' (insert neighbor visited) k
            else
              dfsLoop sh fuel g'
                (fringe' ++ [(neighbor, sh k (g'.getNeighbors neighbor))])
                (insert neighbor visited) (k + 1)

/-- The wall-carving part of
`RandomizedDfsLayoutGenerator.generate_layout`, including the early
return when the start cell has no neighbors. -/
def dfsCarve (width height : Nat)
    (sh : Nat → List (Position × Direction) → List (Position × Direction))
    (start : Position) : Option (CellGrid × Finset Position) :=
  let grid := CellGrid.init width height .EMPTY
  let neighbors := grid.getNeighbors start
  if neighbors.isEmpty then some (grid, {start})
  else
    dfsLoop sh (5 * width * height + 5) grid [(start, neighbors)] {start} 0

theorem dfsLoop_nil (sh : Nat → List (Position × Direction) →
    List (Position × Direction)) (fuel : Nat) (g : CellGrid)
    (visited : Finset Position) (k : Nat) :
    dfsLoop sh (fuel + 1) g [] visited k = some (g, visited) := by
  rw [dfsLoop]
  rfl

theorem dfsLoop_concat (sh : Nat → List (Position × Direction) →
    List (Position × Direction)) (fuel : Nat) (g : CellGrid)
    (fr : List (Position × List (Position × Direction)))
    (position : Position) (ns : List (Position × Direction))
    (neighbor : Position) (direction : Direction)
    (visited : Finset Position) (k : Nat) :
    dfsLoop sh (fuel + 1) g
        (fr ++ [(position, ns ++ [(neighbor, direction)])]) visited k =
      if neighbor ∈ visited then
        dfsLoop sh fuel g
          (if ns.isEmpty then fr else fr ++ [(position, ns)]) visited k
      else
        match g.openWall position direction with
        | .error _ => none
        | .ok g' =>
          if (g'.getNeighbors neighbor).isEmpty then
            dfsLoop sh fuel g'
              (if ns.isEmpty then fr else fr ++ [(position, ns)])
              (insert neighbor visited) k
          else
            dfsLoop sh fuel g'
              ((if ns.isEmpty then fr else fr ++ [(position, ns)])
                ++ [(neighbor, sh k (g'.getNeighbors neighbor))])
              (insert neighbor visited) (k + 1) := by
  rw [dfsLoop]
  simp only [List.getLast?_concat, List.dropLast_concat]

/-- Size of the fringe: total number of pending neighbor entries. -/
def fringeSize (fringe : List (Position × List (Position × Direction))) : Nat :=
  (fringe.map (fun f => f.2.length)).sum

theorem fringeSize_append (l1 l2 : List (Position × List (Position × Direction))) :
    fringeSize (l1 ++ l2) = fringeSize l1 + fringeSize l2 := by
  unfold fringeSize
  rw [List.map_append, List.sum_append]

/-- Loop invariant of the DFS carving. -/
structure DInv (width height : Nat) (g : CellGrid)
    (fringe : List (Position × List (Position × Direction)))
    (visited : Finset Position) : Prop where
  sym : WallSym g
  wEq : g.width = width
  hEq : g.height = height
  visB : ∀ v ∈ visited, inBounds width height v
  visNE : visited.Nonempty
  frames : ∀ f ∈ fringe, f.1 ∈ visited ∧ f.2 ≠ []
    ∧ ∀ x ∈ f.2, x.1 = f.1.step x.2 ∧ inBounds width height x.1
  openIn : ∀ p d, g.isOpen p d = true → p ∈ visited ∧ p.step d ∈ visited
  conn : ∀ p q, p ∈ visited → q ∈ visited → ReachOpen g p q
  count : g.openWallCount + 1 = visited.card
  closure : ∀ v ∈ visited, ∀ e, inBounds width height (v.step e) →
    v.step e ∈ visited
    ∨ ∃ ns d2, (v, ns) ∈ fringe ∧ (v.step e, d2) ∈ ns

/-- The invariant holds on the initial DFS fringe. -/
theorem dfsInit_inv {width height : Nat} {start : Position}
    (hstart : inBounds width height start)
    (hne : (CellGrid.init width height .EMPTY).getNeighbors start ≠ []) :
    DInv width height (CellGrid.init width height .EMPTY)
      [(start, (CellGrid.init width height .EMPTY).getNeighbors start)]
      {start} := by
  constructor
  · exact wallSym_init width height .EMPTY
  · rfl
  · rfl
  · intro v hv
    rw [Finset.mem_singleton.mp hv]
    exact hstart
  · exact ⟨start, Finset.mem_singleton_self start⟩
  · intro f hf
    rw [List.mem_singleton.mp hf]
    refine ⟨Finset.mem_singleton_self start, hne, ?_⟩
    rintro ⟨q, e⟩ hx
    obtain ⟨rfl, hq⟩ := mem_getNeighbors.mp hx
    exact ⟨rfl, hq⟩
  · intro p d hopen
    rw [isOpen_init_false] at hopen
    cases hopen
  · intro p q hp hq
    rw [Finset.mem_singleton.mp hp, Finset.mem_singleton.mp hq]
    exact Relation.ReflTransGen.refl
  · have h0 : (CellGrid.init width height .EMPTY).openWallCount = 0 := by
      unfold CellGrid.openWallCount
      rw [List.countP_eq_zero]
      intro a _
      rw [isOpen_init_false]
      simp
    rw [h0, Finset.card_singleton]
  · intro v hv e hstep
    rw [Finset.mem_singleton.mp hv] at hstep ⊢
    refine Or.inr ⟨_, e, List.mem_singleton_self _, ?_⟩
    exact mem_getNeighbors.mpr ⟨rfl, hstep⟩

/-- The DFS loop drains the fringe and maintains the invariant, given
enough fuel. -/
theorem dfsLoop_spec {width height : Nat}
    (sh : Nat → List (Position × Direction) → List (Position × Direction))
    (hsh : ∀ k l, List.Perm (sh k l) l) :
    ∀ (fuel : Nat) (g : CellGrid)
      (fringe : List (Position × List (Position × Direction)))
      (visited : Finset Position) (k : Nat),
      DInv width height g fringe visited →
      fringeSize fringe + 5 * (width * height - visited.card) < fuel →
      ∃ g' visited',
        dfsLoop sh fuel g fringe visited k = some (g', visited')
        ∧ DInv width height g' [] visited' := by
  intro fuel
  induction fuel with
  | zero =>
    intro g fringe visited k _ hfuel
    omega
  | succ fuel ih =>
    intro g fringe visited k inv hfuel
    rcases List.eq_nil_or_concat fringe with rfl | ⟨fr, f, hef⟩
    · exact ⟨g, visited, dfsLoop_nil sh fuel g visited k, inv⟩
    rw [List.concat_eq_append] at hef
    subst hef
    obtain ⟨position, ns0⟩ := f
    obtain ⟨hposVis, hns0ne, hmembers⟩ := inv.frames (position, ns0)
      (List.mem_append_right _ (List.mem_singleton_self _))
    rcases List.eq_nil_or_concat ns0 with rfl | ⟨ns, nd, hen⟩
    · exact absurd rfl hns0ne
    rw [List.concat_eq_append] at hen
    subst hen
    obtain ⟨neighbor, direction⟩ := nd
    obtain ⟨hnbrEq, hnbrB⟩ := hmembers (neighbor, direction)
      (List.mem_append_right _ (List.mem_singleton_self _))
    dsimp only at hnbrEq hnbrB hposVis hns0ne hmembers
    have hposB : inBounds width height position := inv.visB position hposVis
    have hsize : fringeSize (fr ++ [(position, ns ++ [(neighbor, direction)])])
        = fringeSize fr + ns.length + 1 := by
      rw [fringeSize_append]
      simp [fringeSize]
      omega
    rw [hsize] at hfuel
    have hsizeF' : fringeSize
        (if ns.isEmpty then fr else fr ++ [(position, ns)]) =
        fringeSize fr + ns.length := by
      by_cases hempty : ns.isEmpty
      · rw [if_pos hempty, List.isEmpty_iff.mp hempty]
        simp
      · rw [if_neg hempty, fringeSize_append]
        simp [fringeSize]
    have hmemF' : ∀ z ∈ fr,
        z ∈ (if ns.isEmpty then fr else fr ++ [(position, ns)]) := by
      intro z hz
      by_cases hempty : ns.isEmpty
      · rw [if_pos hempty]
        exact hz
      · rw [if_neg hempty]
        exact List.mem_append_left _ hz
    have htopF' : ns ≠ [] → (position, ns) ∈
        (if ns.isEmpty then fr else fr ++ [(position, ns)]) := by
      intro hne
      rw [if_neg (by simpa [List.isEmpty_iff] using hne)]
      exact List.mem_append_right _ (List.mem_singleton_self _)
    have hframesF' : ∀ f ∈ (if ns.isEmpty then fr else fr ++ [(position, ns)]),
        f.1 ∈ visited ∧ f.2 ≠ []
          ∧ ∀ x ∈ f.2, x.1 = f.1.step x.2 ∧ inBounds width height x.1 := by
      intro f hf
      by_cases hempty : ns.isEmpty
      · rw [if_pos hempty] at hf
        exact inv.frames f (List.mem_append_left _ hf)
      · rw [if_neg hempty] at hf
        rcases List.mem_append.mp hf with h | h
        · exact inv.frames f (List.mem_append_left _ h)
        · rw [List.mem_singleton.mp h]
          refine ⟨hposVis, fun hnil => hempty (by
            rw [List.isEmpty_iff]
            exact hnil), ?_⟩
          intro x hx
          exact hmembers x (List.mem_append_left _ hx)
    by_cases hvis : neighbor ∈ visited
    · rw [dfsLoop_concat, if_pos hvis]
      refine ih g _ visited k ?_ (by rw [hsizeF']; omega)
      refine ⟨inv.sym, inv.wEq, inv.hEq, inv.visB, inv.visNE, hframesF',
        inv.openIn, inv.conn, inv.count, ?_⟩
      intro v hv e hstep
      rcases inv.closure v hv e hstep with h | ⟨ns2, d2, hfr2, hmem2⟩
      · exact Or.inl h
      · rcases List.mem_append.mp hfr2 with h | h
        · exact Or.inr ⟨ns2, d2, hmemF' _ h, hmem2⟩
        · have h1 : v = position :=
            congrArg Prod.fst (List.mem_singleton.mp h)
          have h2 : ns2 = ns ++ [(neighbor, direction)] :=
            congrArg Prod.snd (List.mem_singleton.mp h)
          rw [h2] at hmem2
          rcases List.mem_append.mp hmem2 with hm | hm
          · refine Or.inr ⟨ns, d2, ?_, hm⟩
            rw [h1]
            exact htopF' (List.ne_nil_of_mem hm)
          · have h3 : v.step e = neighbor :=
              congrArg Prod.fst (List.mem_singleton.mp hm)
            exact Or.inl (by rw [h3]; exact hvis)
    · rw [dfsLoop_concat, if_neg hvis]
      have hnbrB' : inBounds width height (position.step direction) := by
        rw [← hnbrEq]
        exact hnbrB
      have hgpos : g.inB position := by
        unfold CellGrid.inB
        rw [inv.wEq, inv.hEq]
        exact hposB
      have hgnbr : g.inB (position.step direction) := by
        unfold CellGrid.inB
        rw [inv.wEq, inv.hEq]
        exact hnbrB'
      have hok : g.openWall position direction =
          .ok (g.openWallUpd position direction) :=
        (g.openWall_eq_ok_iff position direction _).mpr ⟨⟨hgpos, hgnbr⟩, rfl⟩
      rw [hok]
      set g' := g.openWallUpd position direction with hgDef
      have hwEq' : g'.width = width := by
        rw [hgDef, CellGrid.width_openWallUpd]
        exact inv.wEq
      have hhEq' : g'.height = height := by
        rw [hgDef, CellGrid.height_openWallUpd]
        exact inv.hEq
      have htrans' : ∀ z, inBounds width height z → g'.inB z := by
        intro z hz
        unfold CellGrid.inB
        rw [hwEq', hhEq']
        exact hz
      have hsym' : WallSym g' := inv.sym.openWallUpd_sym position direction
      have hclosedwall : g.isOpen position direction = false := by
        cases hop : g.isOpen position direction
        · rfl
        · refine absurd ?_ hvis
          rw [hnbrEq]
          exact (inv.openIn _ _ hop).2
      have hcount' : g'.openWallCount = g.openWallCount + 1 :=
        CellGrid.openWallCount_openWallUpd inv.sym hgpos hgnbr hclosedwall
      have hedge : ReachOpen g' position neighbor := by
        rw [hnbrEq]
        exact Relation.ReflTransGen.single
          ⟨direction, hgpos, hgnbr, rfl,
            g.isOpen_openWallUpd_self position direction⟩
      have hvisited' : ∀ p q, p ∈ visited → q ∈ visited → ReachOpen g' p q :=
        fun p q hp hq => ReachOpen.mono_openWallUpd _ _ (inv.conn p q hp hq)
      have hconn' : ∀ p q, p ∈ insert neighbor visited →
          q ∈ insert neighbor visited → ReachOpen g' p q := by
        intro p q hp hq
        rcases Finset.mem_insert.mp hp with hpc | hp
        · rcases Finset.mem_insert.mp hq with hqc | hq
          · rw [hpc, hqc]
            exact Relation.ReflTransGen.refl
          · rw [hpc]
            exact (hedge.symm_reach hsym').trans (hvisited' _ _ hposVis hq)
        · rcases Finset.mem_insert.mp hq with hqc | hq
          · rw [hqc]
            exact (hvisited' _ _ hp hposVis).trans hedge
          · exact hvisited' p q hp hq
      have hvisB' : ∀ v ∈ insert neighbor visited, inBounds width height v := by
        intro v hv
        rcases Finset.mem_insert.mp hv with hvc | hv
        · rw [hvc]
          exact hnbrB
        · exact inv.visB v hv
      have hopenIn' : ∀ p e, g'.isOpen p e = true →
          p ∈ insert neighbor visited
            ∧ p.step e ∈ insert neighbor visited := by
        intro p e hopen
        rw [hgDef, CellGrid.isOpen_openWallUpd] at hopen
        by_cases hc : (p = position ∧ e = direction)
            ∨ (p = position.step direction ∧ e = direction.reverse)
        · rcases hc with ⟨hpc, hec⟩ | ⟨hpc, hec⟩
          · rw [hpc, hec]
            refine ⟨Finset.mem_insert_of_mem hposVis, ?_⟩
            rw [← hnbrEq]
            exact Finset.mem_insert_self neighbor visited
          · rw [hpc, hec]
            constructor
            · rw [← hnbrEq]
              exact Finset.mem_insert_self neighbor visited
            · rw [Position.step_step_reverse]
              exact Finset.mem_insert_of_mem hposVis
        · rw [if_neg hc] at hopen
          obtain ⟨h1, h2⟩ := inv.openIn p e hopen
          exact ⟨Finset.mem_insert_of_mem h1, Finset.mem_insert_of_mem h2⟩
      have hcountIns : g'.openWallCount + 1 =
          (insert neighbor visited).card := by
        rw [hcount', Finset.card_insert_of_not_mem hvis]
        have := inv.count
        omega
      have hsubIns : insert neighbor visited ⊆ gridPositions width height := by
        intro z hz
        rcases Finset.mem_insert.mp hz with hzc | hz
        · rw [hzc]
          exact mem_gridPositions.mpr hnbrB
        · exact mem_gridPositions.mpr (inv.visB z hz)
      have hcardlt : visited.card < width * height := by
        have h1 : (insert neighbor visited).card ≤ width * height := by
          rw [← gridPositions_card width height]
          exact Finset.card_le_card hsubIns
        rw [Finset.card_insert_of_not_mem hvis] at h1
        omega
      show ∃ g'' visited'',
        (if (g'.getNeighbors neighbor).isEmpty then
            dfsLoop sh fuel g'
              (if ns.isEmpty then fr else fr ++ [(position, ns)])
              (insert neighbor visited) k
          else
            dfsLoop sh fuel g'
              ((if ns.isEmpty then fr else fr ++ [(position, ns)])
                ++ [(neighbor, sh k (g'.getNeighbors neighbor))])
              (insert neighbor visited) (k + 1)) = some (g'', visited'')
          ∧ DInv width height g'' [] visited''
      by_cases hnext : (g'.getNeighbors neighbor).isEmpty
      · rw [if_pos hnext]
        refine ih g' _ (insert neighbor visited) k ?_
          (by rw [hsizeF', Finset.card_insert_of_not_mem hvis]; omega)
        refine ⟨hsym', hwEq', hhEq', hvisB',
          ⟨neighbor, Finset.mem_insert_self neighbor visited⟩, ?_, hopenIn',
          hconn', hcountIns, ?_⟩
        · intro f hf
          obtain ⟨h1, h2, h3⟩ := hframesF' f hf
          exact ⟨Finset.mem_insert_of_mem h1, h2, h3⟩
        · intro v hv e hstep
          rcases Finset.mem_insert.mp hv with hvc | hv
          · exfalso
            have hmem : (v.step e, e) ∈ g'.getNeighbors neighbor := by
              rw [hvc] at hstep ⊢
              exact mem_getNeighbors.mpr ⟨rfl, htrans' _ hstep⟩
            rw [List.isEmpty_iff.mp hnext] at hmem
            cases hmem
          · rcases inv.closure v hv e hstep with h | ⟨ns2, d2, hfr2, hmem2⟩
            · exact Or.inl (Finset.mem_insert_of_mem h)
            · rcases List.mem_append.mp hfr2 with h | h
              · exact Or.inr ⟨ns2, d2, hmemF' _ h, hmem2⟩
              · have h1 : v = position :=
                  congrArg Prod.fst (List.mem_singleton.mp h)
                have h2 : ns2 = ns ++ [(neighbor, direction)] :=
                  congrArg Prod.snd (List.mem_singleton.mp h)
                rw [h2] at hmem2
                rcases List.mem_append.mp hmem2 with hm | hm
                · refine Or.inr ⟨ns, d2, ?_, hm⟩
                  rw [h1]
                  exact htopF' (List.ne_nil_of_mem hm)
                · have h3 : v.step e = neighbor :=
                    congrArg Prod.fst (List.mem_singleton.mp hm)
                  exact Or.inl (by
                    rw [h3]
                    exact Finset.mem_insert_self neighbor visited)
      · rw [if_neg hnext]
        have hshlen : (sh k (g'.getNeighbors neighbor)).length =
            (g'.getNeighbors neighbor).length := (hsh k _).length_eq
        have hnextlen : (g'.getNeighbors neighbor).length ≤ 4 :=
          getNeighbors_length_le g' neighbor
        refine ih g' _ (insert neighbor visited) (k + 1) ?_ ?_
        · refine ⟨hsym', hwEq', hhEq', hvisB',
            ⟨neighbor, Finset.mem_insert_self neighbor visited⟩, ?_,
            hopenIn', hconn', hcountIns, ?_⟩
          · intro f hf
            rcases List.mem_append.mp hf with h | h
            · obtain ⟨h1, h2, h3⟩ := hframesF' f h
              exact ⟨Finset.mem_insert_of_mem h1, h2, h3⟩
            · rw [List.mem_singleton.mp h]
              refine ⟨Finset.mem_insert_self neighbor visited, ?_, ?_⟩
              · intro hnil
                dsimp only at hnil
                have := (hsh k (g'.getNeighbors neighbor)).length_eq
                rw [hnil] at this
                exact hnext (by
                  rw [List.isEmpty_iff]
                  cases hgn : g'.getNeighbors neighbor
                  · rfl
                  · rw [hgn] at this
                    simp at this)
              · rintro ⟨q, e⟩ hx
                have hx' := (hsh k _).subset hx
                obtain ⟨heq1, hb⟩ := mem_getNeighbors.mp hx'
                refine ⟨heq1, ?_⟩
                unfold CellGrid.inB at hb
                rw [hwEq', hhEq'] at hb
                exact hb
          · intro v hv e hstep
            rcases Finset.mem_insert.mp hv with hvc | hv
            · refine Or.inr ⟨sh k (g'.getNeighbors neighbor), e, ?_, ?_⟩
              · rw [hvc]
                exact List.mem_append_right _ (List.mem_singleton_self _)
              · refine (hsh k _).mem_iff.mpr ?_
                rw [hvc] at hstep ⊢
                exact mem_getNeighbors.mpr ⟨rfl, htrans' _ hstep⟩
            · rcases inv.closure v hv e hstep with h | ⟨ns2, d2, hfr2, hmem2⟩
              · exact Or.inl (Finset.mem_insert_of_mem h)
              · rcases List.mem_append.mp hfr2 with h | h
                · exact Or.inr ⟨ns2, d2,
                    List.mem_append_left _ (hmemF' _ h), hmem2⟩
                · have h1 : v = position :=
                    congrArg Prod.fst (List.mem_singleton.mp h)
                  have h2 : ns2 = ns ++ [(neighbor, direction)] :=
                    congrArg Prod.snd (List.mem_singleton.mp h)
                  rw [h2] at hmem2
                  rcases List.mem_append.mp hmem2 with hm | hm
                  · refine Or.inr ⟨ns, d2,
                      List.mem_append_left _ ?_, hm⟩
                    rw [h1]
                    exact htopF' (List.ne_nil_of_mem hm)
                  · have h3 : v.step e = neighbor :=
                      congrArg Prod.fst (List.mem_singleton.mp hm)
                    exact Or.inl (by
                      rw [h3]
                      exact Finset.mem_insert_self neighbor visited)
        · rw [fringeSize_append, hsizeF',
            Finset.card_insert_of_not_mem hvis]
          have hsz1 : fringeSize [(neighbor, sh k (g'.getNeighbors neighbor))]
              = (g'.getNeighbors neighbor).length := by
            unfold fringeSize
            simp [hshlen]
          rw [hsz1]
          omega

/-- On a grid with more than one column, every in-bounds cell has at
least one neighbor. -/
theorem getNeighbors_init_ne_nil {width height : Nat} (hw : 1 < width)
    {start : Position} (hstart : inBounds width height start) :
    (CellGrid.init width height .EMPTY).getNeighbors start ≠ [] := by
  obtain ⟨hx0, hxw, hy0, hyh⟩ := hstart
  by_cases hx : start.x_coord + 1 < (width : Int)
  · have hstep : start.step .RIGHT =
        { x_coord := start.x_coord + 1, y_coord := start.y_coord } := by
      simp [Position.step, Position.add, Direction.toPos]
    have hmem : (start.step .RIGHT, Direction.RIGHT)
        ∈ (CellGrid.init width height .EMPTY).getNeighbors start := by
      refine mem_getNeighbors.mpr ⟨rfl, ?_⟩
      show inBounds width height _
      unfold inBounds
      rw [hstep]
      dsimp only
      exact ⟨by omega, hx, hy0, hyh⟩
    exact List.ne_nil_of_mem hmem
  · have hstep : start.step .LEFT =
        { x_coord := start.x_coord - 1, y_coord := start.y_coord } := by
      simp [Position.step, Position.add, Direction.toPos]
      omega
    have hmem : (start.step .LEFT, Direction.LEFT)
        ∈ (CellGrid.init width height .EMPTY).getNeighbors start := by
      refine mem_getNeighbors.mpr ⟨rfl, ?_⟩
      show inBounds width height _
      unfold inBounds
      rw [hstep]
      dsimp only
      refine ⟨by omega, by omega, hy0, hyh⟩
    exact List.ne_nil_of_mem hmem

/-- Randomized DFS produces a spanning tree for every shuffle oracle
and every in-bounds start cell, on grids with more than one column. -/
theorem dfsCarve_spanning {width height : Nat} (hw : 1 < width)
    (hh : 0 < height)
    (sh : Nat → List (Position × Direction) → List (Position × Direction))
    (hsh : ∀ k l, List.Perm (sh k l) l) (start : Position)
    (hstart : inBounds width height start) :
    ∃ g' visited', dfsCarve width height sh start = some (g', visited')
      ∧ g'.width = width ∧ g'.height = height
      ∧ g'.Connected
      ∧ g'.openWallCount = width * height - 1 := by
  have hne := getNeighbors_init_ne_nil hw hstart
  have hcarve : dfsCarve width height sh start =
      dfsLoop sh (5 * width * height + 5) (CellGrid.init width height .EMPTY)
        [(start, (CellGrid.init width height .EMPTY).getNeighbors start)]
        {start} 0 := by
    unfold dfsCarve
    rw [if_neg]
    intro habs
    exact hne (List.isEmpty_iff.mp habs)
  have hinit := @dfsInit_inv width height start hstart hne
  have hfuel : fringeSize
      [(start, (CellGrid.init width height .EMPTY).getNeighbors start)]
      + 5 * (width * height - ({start} : Finset Position).card)
      < 5 * width * height + 5 := by
    have h4 := getNeighbors_length_le (CellGrid.init width height .EMPTY) start
    have hsz : fringeSize
        [(start, (CellGrid.init width height .EMPTY).getNeighbors start)]
        = ((CellGrid.init width height .EMPTY).getNeighbors start).length := by
      unfold fringeSize
      simp
    rw [hsz, Finset.card_singleton, Nat.mul_assoc]
    have : 1 ≤ width * height := Nat.one_le_iff_ne_zero.mpr
      (Nat.mul_ne_zero (by omega) (by omega))
    omega
  obtain ⟨g', visited', heq, inv'⟩ := dfsLoop_spec sh hsh _
    (CellGrid.init width height .EMPTY)
    [(start, (CellGrid.init width height .EMPTY).getNeighbors start)]
    {start} 0 hinit hfuel
  obtain ⟨v0, hv0⟩ := inv'.visNE
  have hall : ∀ p, inBounds width height p → p ∈ visited' := by
    refine closure_all (V := visited') ?_ hv0 (inv'.visB _ hv0)
    intro v hv q hadj
    obtain ⟨-, hqB, e, rfl⟩ := hadj
    rcases inv'.closure v hv e hqB with h | ⟨ns, d2, hns, -⟩
    · exact h
    · cases hns
  have hvisEq : visited' = gridPositions width height := by
    apply Finset.Subset.antisymm
    · intro z hz
      exact mem_gridPositions.mpr (inv'.visB z hz)
    · intro z hz
      exact hall z (mem_gridPositions.mp hz)
  refine ⟨g', visited', hcarve.trans heq, inv'.wEq, inv'.hEq, ?_, ?_⟩
  · intro p q hpB hqB
    have hp : inBounds width height p := by
      unfold CellGrid.inB at hpB
      rw [inv'.wEq, inv'.hEq] at hpB
      exact hpB
    have hq : inBounds width height q := by
      unfold CellGrid.inB at hqB
      rw [inv'.wEq, inv'.hEq] at hqB
      exact hqB
    exact inv'.conn p q (hall p hp) (hall q hq)
  · have hcard : visited'.card = width * height := by
      rw [hvisEq, gridPositions_card]
    have := inv'.count
    omega

/-! ## Claim theorems (part 1) -/

/-- C6: for every grid reachable from `CellGrid.__init__` through the
public mutators (`open_wall`, which is the only way the spanning-tree
strategies touch walls, and cell-type assignment), `to_layout()` has
exactly `2·height+1` rows, each of exactly `2·width+1` columns, and
every cell of the border ring (row `0`, row `2·height`, column `0`,
column `2·width`) is `WALL`. -/
theorem claim_C6_layout_dimensions_and_border :
    ∀ (w h : Nat) (ops : List GridOp),
      (applyOps (CellGrid.init w h .EMPTY) ops).toLayout.rows.length =
          2 * h + 1
      ∧ (∀ i, i < 2 * h + 1 →
          ((applyOps (CellGrid.init w h .EMPTY) ops).toLayout.rows.getD
            i []).length = 2 * w + 1)
      ∧ (∀ j i, j ≤ 2 * h → i ≤ 2 * w →
          (j = 0 ∨ j = 2 * h ∨ i = 0 ∨ i = 2 * w) →
          (applyOps (CellGrid.init w h .EMPTY) ops).toLayout.get j i =
            .WALL) := by
  intro w h ops
  have hw : (applyOps (CellGrid.init w h .EMPTY) ops).width = w :=
    (applyOps_dims _ ops).1
  have hh : (applyOps (CellGrid.init w h .EMPTY) ops).height = h :=
    (applyOps_dims _ ops).2
  have hinv := applyOps_inv ops
    ⟨wallSym_init w h .EMPTY, closedOutward_init w h .EMPTY⟩
  refine ⟨?_, ?_, ?_⟩
  · rw [toLayout_rows_length, hh]
  · intro i hi
    rw [toLayout_row_length _ i (by rw [hh]; exact hi), hw]
  · intro j i hj hi hborder
    exact toLayout_border_wall hinv.2 (by rw [hh]; exact hj)
      (by rw [hw]; exact hi) (by rw [hh, hw]; exact hborder)

/-- C6 witness: the theorem instantiated on a 3×3 grid with one opened
wall, read at a border corner and a border edge cell. -/
theorem claim_C6_layout_dimensions_and_border_witness :
    (applyOps (CellGrid.init 3 3 .EMPTY)
        [.wallOp { x_coord := 0, y_coord := 0 } .RIGHT]).toLayout.rows.length
        = 7
    ∧ (applyOps (CellGrid.init 3 3 .EMPTY)
        [.wallOp { x_coord := 0, y_coord := 0 } .RIGHT]).toLayout.get 0 2 =
        .WALL :=
  ⟨(claim_C6_layout_dimensions_and_border 3 3
      [.wallOp { x_coord := 0, y_coord := 0 } .RIGHT]).1,
    (claim_C6_layout_dimensions_and_border 3 3
      [.wallOp { x_coord := 0, y_coord := 0 } .RIGHT]).2.2 0 2
      (by decide) (by decide) (Or.inl rfl)⟩

/-- C3: layout generation is deterministic — it is a pure function of
the tuple (width, height, random state seeded from the seed, carving
strategy with its parameters, problem type, max_food, sampling fuel):
two runs on equal tuples, with the same PRNG primitives, produce the
same `Layout` cell for cell.  The embedding threads the seeded PRNG
state explicitly, so the absence of any other source of randomness is
part of the translation itself. -/
theorem claim_C3_generation_deterministic :
    ∀ {σ : Type} (randint : σ → Int → Int → Int × σ)
      (shuffle_positions : σ → List Position → List Position × σ)
      (strategy : CellGrid → σ → Option (Layout × σ))
      (w1 h1 f1 : Nat) (pt1 : ProblemType) (mf1 : Int) (s1 : σ)
      (w2 h2 f2 : Nat) (pt2 : ProblemType) (mf2 : Int) (s2 : σ),
      (w1, h1, f1, pt1, mf1, s1) = (w2, h2, f2, pt2, mf2, s2) →
      generateLayout randint shuffle_positions strategy w1 h1 f1 pt1 mf1 s1 =
        generateLayout randint shuffle_positions strategy w2 h2 f2 pt2 mf2
          s2 := by
  intro σ randint shuffle_positions strategy w1 h1 f1 pt1 mf1 s1
    w2 h2 f2 pt2 mf2 s2 h
  simp only [Prod.mk.injEq] at h
  obtain ⟨rfl, rfl, rfl, rfl, rfl, rfl⟩ := h
  rfl

/-- C3 witness: two runs with a concrete PRNG model, strategy and
parameter tuple coincide. -/
theorem claim_C3_generation_deterministic_witness :
    generateLayout (σ := Nat) (fun s a _ => (a, s + 1)) (fun s l => (l, s))
        (fun g s => some (g.toLayout, s)) 3 3 3 .SEARCH 1 0 =
      generateLayout (σ := Nat) (fun s a _ => (a, s + 1)) (fun s l => (l, s))
        (fun g s => some (g.toLayout, s)) 3 3 3 .SEARCH 1 0 :=
  claim_C3_generation_deterministic (fun s a _ => (a, s + 1))
    (fun s l => (l, s)) (fun g s => some (g.toLayout, s))
    3 3 3 .SEARCH 1 0 3 3 3 .SEARCH 1 0 rfl

/-- C4: with `cycle_probability = 1` the post-carving cycle pass visits
every cell/direction pair and, since every `random()` draw lies in
`[0,1)` and hence below `1`, opens every candidate wall of whatever
carved grid any of the four strategies produced (the pass itself is
modelled from the spec, as it is missing from `src/`). -/
theorem claim_C4_cycle_pass_opens_every_wall :
    ∀ (g : CellGrid) (stream : Nat → ℚ), (∀ k, stream k < 1) →
      ∀ p d, g.inB p → g.inB (p.step d) →
        (cyclePass 1 stream g).isOpen p d = true := by
  intro g stream hstr p d hp hstep
  obtain ⟨-, -, -, hopen⟩ :=
    cyclePassLoop_one_spec stream hstr (positionsList g.width g.height) g 0
  exact hopen p (mem_positionsList.mpr hp) d hstep

/-- C4 witness: the pass with probability `1` on a fresh 3×3 grid opens
a concrete wall. -/
theorem claim_C4_cycle_pass_opens_every_wall_witness :
    (cyclePass 1 (fun _ => 0) (CellGrid.init 3 3 .EMPTY)).isOpen
      { x_coord := 0, y_coord := 0 } .RIGHT = true :=
  claim_C4_cycle_pass_opens_every_wall (CellGrid.init 3 3 .EMPTY)
    (fun _ => 0) (fun _ => by norm_num) _ .RIGHT (by decide) (by decide)

/-- C5 (amended): with `wall_probability = 1.0` every `random()` draw
(always in `[0,1)`) satisfies `random() < wall_probability`, so the
Independent-Probability generator opens EVERY candidate wall for every
width, height and random stream: the carved grid is maximally open, not
fully isolated. -/
theorem claim_C5_full_probability_opens_all :
    ∀ (w h : Nat) (stream : Nat → ℚ), (∀ k, stream k < 1) →
      ∃ g, randCarve w h 1 stream = .ok g
        ∧ ∀ p d, inBounds w h p → inBounds w h (p.step d) →
            g.isOpen p d = true := by
  intro w h stream hstr
  obtain ⟨g', k', heq, hw, hh, -, hopen⟩ :=
    randCarveLoop_one_spec stream hstr (positionsList w h)
      (CellGrid.init w h .EMPTY) 0
      (fun p hp => mem_positionsList.mp hp)
  refine ⟨g', ?_, ?_⟩
  · unfold randCarve
    rw [heq]
    rfl
  · intro p d hp hstep
    exact hopen p (mem_positionsList.mpr hp) d hstep

/-- C5 witness for the amended claim: the all-zero stream on a 3×3 grid. -/
theorem claim_C5_full_probability_opens_all_witness :
    ∃ g, randCarve 3 3 1 (fun _ => 0) = .ok g
      ∧ g.isOpen { x_coord := 0, y_coord := 0 } .RIGHT = true := by
  obtain ⟨g, hg, hall⟩ :=
    claim_C5_full_probability_opens_all 3 3 (fun _ => 0)
      (fun _ => by norm_num)
  exact ⟨g, hg, hall _ .RIGHT (by decide) (by decide)⟩

/-- C5: counterexample to the claim as stated.  On a 3×3 grid with
`wall_probability = 1.0` (stream all zeros, as any seed produces draws
in `[0,1)`) the carved grid has 12 open walls — every candidate wall —
not zero. -/
theorem claim_C5_counterexample_nonzero_open_walls :
    (randCarve 3 3 1 (fun _ => 0)).map CellGrid.openWallCount ≠ .ok 0
    ∧ (randCarve 3 3 1 (fun _ => 0)).map CellGrid.openWallCount = .ok 12 := by
  have h : (randCarve 3 3 1 (fun _ => 0)).map CellGrid.openWallCount =
      .ok 12 := by rfl
  refine ⟨?_, h⟩
  rw [h]
  simp

/-- C2: immediately after a successful `open_wall(p, d)` the two sides of
the shared wall agree (`grid[p].is_open(d) = grid[p+d].is_open(d.reverse())`),
and two-sided agreement (`WallSym`) holds initially and is preserved by
every grid operation (`open_wall` and cell-type assignment, the only
mutators of a `CellGrid`). -/
theorem claim_C2_open_wall_symmetry :
    (∀ (g : CellGrid) (p : Position) (d : Direction) (g' : CellGrid),
        g.openWall p d = .ok g' →
        g'.isOpen p d = g'.isOpen (p.step d) d.reverse)
    ∧ (∀ (g : CellGrid) (p : Position) (d : Direction) (g' : CellGrid),
        g.openWall p d = .ok g' → WallSym g → WallSym g')
    ∧ (∀ (g : CellGrid) (p : Position) (t : CellType),
        WallSym g → WallSym (g.setType p t))
    ∧ (∀ (w h : Nat) (t : CellType), WallSym (CellGrid.init w h t)) := by
  refine ⟨?_, ?_, ?_, ?_⟩
  · intro g p d g' hok
    obtain ⟨-, rfl⟩ := (g.openWall_eq_ok_iff p d g').mp hok
    rw [g.isOpen_openWallUpd_self p d, g.isOpen_openWallUpd_nbr p d]
  · intro g p d g' hok hs
    obtain ⟨-, rfl⟩ := (g.openWall_eq_ok_iff p d g').mp hok
    exact hs.openWallUpd_sym p d
  · intro g p t hs
    exact hs.setType_sym p t
  · intro w h t
    exact wallSym_init w h t

/-- C2 witness: instantiation on a concrete 3×3 grid. -/
theorem claim_C2_open_wall_symmetry_witness :
    ∃ g' : CellGrid,
      (CellGrid.init 3 3 .EMPTY).openWall { x_coord := 0, y_coord := 0 }
          .RIGHT = .ok g'
      ∧ g'.isOpen { x_coord := 0, y_coord := 0 } .RIGHT =
          g'.isOpen (Position.step { x_coord := 0, y_coord := 0 } .RIGHT)
            Direction.RIGHT.reverse
      ∧ WallSym g' := by
  have hok : (CellGrid.init 3 3 .EMPTY).openWall { x_coord := 0, y_coord := 0 }
      .RIGHT = .ok ((CellGrid.init 3 3 .EMPTY).openWallUpd
        { x_coord := 0, y_coord := 0 } .RIGHT) :=
    (CellGrid.openWall_eq_ok_iff _ _ _ _).mpr ⟨by decide, rfl⟩
  exact ⟨_, hok,
    claim_C2_open_wall_symmetry.1 _ _ .RIGHT _ hok,
    claim_C2_open_wall_symmetry.2.1 _ _ .RIGHT _ hok
      (claim_C2_open_wall_symmetry.2.2.2 3 3 .EMPTY)⟩

/-- C7: `open_wall(p, d)` signals the out-of-bounds `IndexError` exactly
when `p` or `p + d` lies outside `[0,width) × [0,height)`; on success it
performs precisely the two symmetric cell mutations, so the bounds check
decides the outcome before any wall flag is written (the grid is
untouched on the error path). -/
theorem claim_C7_open_wall_error_iff :
    ∀ (g : CellGrid) (p : Position) (d : Direction),
      ((∃ msg, g.openWall p d = .error msg) ↔
        ¬(inBounds g.width g.height p
          ∧ inBounds g.width g.height (p.step d)))
      ∧ (∀ g', g.openWall p d = .ok g' → g' = g.openWallUpd p d) := by
  intro g p d
  constructor
  · exact g.openWall_isError_iff p d
  · intro g' hok
    exact ((g.openWall_eq_ok_iff p d g').mp hok).2

/-- C7 witness: opening towards the outside of a concrete 3×3 grid
signals the error. -/
theorem claim_C7_open_wall_error_iff_witness :
    ∃ msg, (CellGrid.init 3 3 .EMPTY).openWall
        { x_coord := 0, y_coord := 0 } .LEFT = .error msg :=
  (claim_C7_open_wall_error_iff (CellGrid.init 3 3 .EMPTY)
    { x_coord := 0, y_coord := 0 } .LEFT).1.mpr (by decide)

/-- C9: counterexample showing the claim false on the code.  The body of
`Position.__sub__` adds the components (contradicting its own docstring
"Subtracts the coordinates"), so `(0,0) - (1,0)` evaluates to `(1,0)`
instead of the component-wise difference `(-1,0)`. -/
theorem claim_C9_sub_adds :
    Position.sub { x_coord := 0, y_coord := 0 } { x_coord := 1, y_coord := 0 }
        = { x_coord := 1, y_coord := 0 }
    ∧ Position.sub { x_coord := 0, y_coord := 0 }
        { x_coord := 1, y_coord := 0 }
        ≠ { x_coord := 0 - 1, y_coord := 0 - 0 } := by
  constructor
  · rfl
  · decide

/-- C10: stepping in a direction and then in its reverse returns to the
original position, and `reverse` is an involution on the four
directions. -/
theorem claim_C10_direction_algebra :
    (∀ (p : Position) (d : Direction),
      (p.add d.toPos).add d.reverse.toPos = p)
    ∧ (∀ d : Direction, d.reverse.reverse = d) :=
  ⟨fun p d => Position.step_step_reverse p d, Direction.reverse_reverse⟩

/-- C8: counterexample showing the claim false on the code.
`LayoutGenerator.is_border` compares `x_coord` with `height - 1` and
`y_coord` with `width - 1`; on a 4×3 grid the position `(3, 1)` lies on
the last column (`x = width - 1`) yet `is_border` returns `False`. -/
theorem claim_C8_is_border_mixes_axes :
    is_border 4 3 { x_coord := 3, y_coord := 1 } = false
    ∧ specIsBorder 4 3 { x_coord := 3, y_coord := 1 } := by
  constructor
  · decide
  · decide

/-- C1: for every width > 2 and height > 2, each of the three carving
strategies — Kruskal for every shuffling of the candidate wall list,
Prim and randomized DFS for every shuffle oracle and every in-bounds
start cell, covering every seed — produces a connected grid with
exactly `width * height - 1` open walls: the open walls form a spanning
tree of the cells. -/
theorem claim_C1_carvers_produce_spanning_tree
    {width height : Nat} (hw : 2 < width) (hh : 2 < height) :
    (∀ shuffled : List (Position × Direction),
      shuffled.Perm (kruskalWalls width height) →
      ∃ st', kruskalCarve width height shuffled = .ok st'
        ∧ st'.grid.width = width ∧ st'.grid.height = height
        ∧ st'.grid.Connected
        ∧ st'.grid.openWallCount = width * height - 1)
    ∧ (∀ sh : Nat → List (Position × Direction) → List (Position × Direction),
      (∀ k l, List.Perm (sh k l) l) →
      ∀ start : Position, inBounds width height start →
      ∃ g' visited', primCarve width height sh start = some (g', visited')
        ∧ g'.width = width ∧ g'.height = height
        ∧ g'.Connected
        ∧ g'.openWallCount = width * height - 1)
    ∧ (∀ sh : Nat → List (Position × Direction) → List (Position × Direction),
      (∀ k l, List.Perm (sh k l) l) →
      ∀ start : Position, inBounds width height start →
      ∃ g' visited', dfsCarve width height sh start = some (g', visited')
        ∧ g'.width = width ∧ g'.height = height
        ∧ g'.Connected
        ∧ g'.openWallCount = width * height - 1) := by
  refine ⟨?_, ?_, ?_⟩
  · intro shuffled hperm
    exact kruskalCarve_spanning (by omega) (by omega) shuffled hperm
  · intro sh hsh start hstart
    exact primCarve_spanning (by omega) (by omega) sh hsh start hstart
  · intro sh hsh start hstart
    exact dfsCarve_spanning (by omega) (by omega) sh hsh start hstart

/-- C1 witness: on the 3×3 grid with the identity shuffle oracle and
start cell `(0, 0)`, all three carvers succeed as stated. -/
theorem claim_C1_carvers_produce_spanning_tree_witness :
    2 < 3 ∧ inBounds 3 3 { x_coord := 0, y_coord := 0 }
    ∧ ((∃ st', kruskalCarve 3 3 (kruskalWalls 3 3) = .ok st'
        ∧ st'.grid.width = 3 ∧ st'.grid.height = 3
        ∧ st'.grid.Connected ∧ st'.grid.openWallCount = 3 * 3 - 1)
      ∧ (∃ g' visited',
          primCarve 3 3 (fun _ l => l) { x_coord := 0, y_coord := 0 }
            = some (g', visited')
          ∧ g'.width = 3 ∧ g'.height = 3
          ∧ g'.Connected ∧ g'.openWallCount = 3 * 3 - 1)
      ∧ (∃ g' visited',
          dfsCarve 3 3 (fun _ l => l) { x_coord := 0, y_coord := 0 }
            = some (g', visited')
          ∧ g'.width = 3 ∧ g'.height = 3
          ∧ g'.Connected ∧ g'.openWallCount = 3 * 3 - 1)) := by
  have h := @claim_C1_carvers_produce_spanning_tree 3 3 (by decide) (by decide)
  exact ⟨by decide, by decide,
    h.1 (kruskalWalls 3 3) (List.Perm.refl _),
    h.2.1 (fun _ l => l) (fun _ l => List.Perm.refl l)
      { x_coord := 0, y_coord := 0 } (by decide),
    h.2.2 (fun _ l => l) (fun _ l => List.Perm.refl l)
      { x_coord := 0, y_coord := 0 } (by decide)⟩

end PacmanMapgen
